import Mathlib

/-!
# Verification of the browserReader highlight anchoring engine

A shallow embedding of the highlight engine in `src/content/content.ts`
(class `HighlightManager`) and of `src/utils/storage.ts`
(class `StorageManager`), together with theorems settling the frozen
claims about the natural-language specification.

Modelling conventions:
* JS strings are `List Char`; JS string methods (`trim`, `indexOf`,
  `replace(/\s+/g,' ')`, `toLowerCase`, `split`) are translated below.
* The live document is a rose tree.  `Doc := List DomNode` is the list of
  children of `document.body`; a node is addressed by its child-index path
  from the body.  DOM node identity is modelled by structural equality.
* A DOM `Range` is `MRange`: a `(path, offset)` pair for each endpoint.
  A range whose paths or offsets no longer address nodes of the current
  tree models a stale range ("one endpoint has become invalid"); every
  DOM operation on such a range fails (throws) without mutating the tree.
* Fallible DOM operations return `Except Unit` / `Option`; a thrown DOM
  exception is `.error` / `none`.  Per the DOM standard the throwing
  checks of `surroundContents`, `extractContents` and `insertNode`
  precede any mutation, so a failing call leaves the tree unchanged.
-/

namespace BrowserReader

/-! ## JS string primitives on `List Char` -/

/-- JS `\s` (ASCII part; the unicode space classes play no role here). -/
def isJsWhitespace (c : Char) : Bool :=
  c = ' ' || c = '\t' || c = '\n' || c = '\r' ||
  c = Char.ofNat 11 || c = Char.ofNat 12

/-- `isWordBoundary` (content.ts:666): the regex
`[\s\.,;:!?\-()[\]\x7b\x7d'""]` — whitespace or the fixed punctuation set. -/
def isWordBoundaryChar (c : Char) : Bool :=
  isJsWhitespace c ||
  c = '.' || c = ',' || c = ';' || c = ':' || c = '!' || c = '?' ||
  c = '-' || c = '(' || c = ')' || c = '[' || c = ']' ||
  c = Char.ofNat 123 || c = Char.ofNat 125 || c = Char.ofNat 39 ||
  c = Char.ofNat 34

/-- JS `String.prototype.trim`. -/
def trimChars (s : List Char) : List Char :=
  ((s.dropWhile isJsWhitespace).reverse.dropWhile isJsWhitespace).reverse

/-- Whether `small` occurs at the head of `big` (helper for `indexOf`). -/
def headMatches : List Char → List Char → Bool
  | _, [] => true
  | [], _ :: _ => false
  | a :: as, b :: bs => a = b && headMatches as bs

/-- JS `String.prototype.indexOf`, as `Option Nat` (`none` = `-1`). -/
def firstIndexOf : List Char → List Char → Option Nat
  | hay, needle =>
    if headMatches hay needle then some 0
    else match hay with
      | [] => none
      | _ :: rest => (firstIndexOf rest needle).map (· + 1)

/-- JS `String.prototype.includes`. -/
def containsSub (hay needle : List Char) : Bool :=
  (firstIndexOf hay needle).isSome

/-- JS `String.prototype.toLowerCase` (modelled with `Char.toLower`). -/
def lowerChars (s : List Char) : List Char := s.map Char.toLower

mutual
/-- JS `replace(/\s+/g, ' ')`: collapse every whitespace run to one
space (scanning outside a whitespace run). -/
def collapseWs : List Char → List Char
  | [] => []
  | c :: rest =>
    if isJsWhitespace c then ' ' :: collapseWsSkip rest
    else c :: collapseWs rest

/-- `collapseWs` inside a whitespace run (the run's single space is
already emitted). -/
def collapseWsSkip : List Char → List Char
  | [] => []
  | c :: rest =>
    if isJsWhitespace c then collapseWsSkip rest
    else c :: collapseWs rest
end

mutual
/-- JS `split(/\s+/)` restricted to what `partialTextSearch` needs: the
maximal non-whitespace runs of the string (scanning between tokens). -/
def wsTokensOut : List Char → List (List Char)
  | [] => []
  | c :: rest =>
    if isJsWhitespace c then wsTokensOut rest else wsTokensIn [c] rest

/-- Token scan inside a token; `acc` holds the token so far, reversed. -/
def wsTokensIn (acc : List Char) : List Char → List (List Char)
  | [] => [acc.reverse]
  | c :: rest =>
    if isJsWhitespace c then acc.reverse :: wsTokensOut rest
    else wsTokensIn (c :: acc) rest
end

/-- JS `split(/\s+/)` producing the non-empty tokens. -/
def wsTokens : List Char → List (List Char) := wsTokensOut

/-- JS `Array.prototype.join(' ')` for token lists. -/
def joinSpace : List (List Char) → List Char
  | [] => []
  | [t] => t
  | t :: rest => t ++ ' ' :: joinSpace rest

/-! ## The DOM model -/

/-- A DOM node: a text node, or an element with a tag name, an `id`
attribute (`""` = absent), a highlight marker and children.
`hl = some hid` models a highlight wrapper `span` carrying the class
`text-highlight` and the attribute `data-highlight-id = hid`;
`hl = none` models every other element. -/
inductive DomNode where
  | text (s : List Char)
  | elem (tag : String) (idAttr : String) (hl : Option String)
      (children : List DomNode)
deriving Repr

mutual

def decEqNode : (a b : DomNode) → Decidable (a = b)
  | .text s, .text t =>
    match decEq s t with
    | isTrue h => isTrue (by rw [h])
    | isFalse h => isFalse (fun hh => h (by cases hh; rfl))
  | .text _, .elem _ _ _ _ => isFalse (by intro h; cases h)
  | .elem _ _ _ _, .text _ => isFalse (by intro h; cases h)
  | .elem t1 i1 h1 c1, .elem t2 i2 h2 c2 =>
    if ht : t1 = t2 then
      if hi : i1 = i2 then
        if hh : h1 = h2 then
          match decEqNodeList c1 c2 with
          | isTrue hc => isTrue (by rw [ht, hi, hh, hc])
          | isFalse hc => isFalse (fun h => hc (by cases h; rfl))
        else isFalse (fun h => hh (by cases h; rfl))
      else isFalse (fun h => hi (by cases h; rfl))
    else isFalse (fun h => ht (by cases h; rfl))

def decEqNodeList : (a b : List DomNode) → Decidable (a = b)
  | [], [] => isTrue rfl
  | [], _ :: _ => isFalse (by intro h; cases h)
  | _ :: _, [] => isFalse (by intro h; cases h)
  | a :: as, b :: bs =>
    match decEqNode a b, decEqNodeList as bs with
    | isTrue h1, isTrue h2 => isTrue (by rw [h1, h2])
    | isFalse h1, _ => isFalse (fun h => h1 (by cases h; rfl))
    | _, isFalse h2 => isFalse (fun h => h2 (by cases h; rfl))

end

instance : DecidableEq DomNode := decEqNode

/-- The children of `document.body`. -/
abbrev Doc := List DomNode

mutual
/-- `Node.textContent` of one node. -/
def textContentNode : DomNode → List Char
  | .text s => s
  | .elem _ _ _ cs => textContentList cs

/-- Concatenated text content of a node list. -/
def textContentList : List DomNode → List Char
  | [] => []
  | c :: cs => textContentNode c ++ textContentList cs
end

mutual
/-- Pre-order list of the text nodes of a node, as
`(path below the node, content, parent is a highlight element)`. -/
def textNodesNode (ph : Bool) : DomNode → List (List Nat × List Char × Bool)
  | .text s => [([], s, ph)]
  | .elem _ _ hl cs => textNodesList hl.isSome 0 cs

/-- Pre-order text nodes of a child list, child indices starting at `i`. -/
def textNodesList (ph : Bool) (i : Nat) :
    List DomNode → List (List Nat × List Char × Bool)
  | [] => []
  | c :: cs =>
    ((textNodesNode ph c).map (fun x => (i :: x.1, x.2.1, x.2.2))) ++
      textNodesList ph (i + 1) cs
end

/-- The node addressed by a child-index path (`[]` is not a node: the
body itself is outside the model, so `none`). -/
def nodeAt (doc : Doc) : List Nat → Option DomNode
  | [] => none
  | i :: rest =>
    match doc[i]? with
    | some n =>
      match rest, n with
      | [], _ => some n
      | _ :: _, .elem _ _ _ cs => nodeAt cs rest
      | _ :: _, .text _ => none
    | none => none

/-- The child list of the element at path `q` (`q = []` = body). -/
def childrenAt (doc : Doc) (q : List Nat) : Option (List DomNode) :=
  match q with
  | [] => some doc
  | _ :: _ =>
    match nodeAt doc q with
    | some (.elem _ _ _ cs) => some cs
    | _ => none

/-- Split a path into the path of the parent and the final child index. -/
def pathSplit (p : List Nat) : Option (List Nat × Nat) :=
  match p.getLast? with
  | some i => some (p.dropLast, i)
  | none => none

/-- Rewrite the child list of the element at path `q`, also producing a
value (models an in-place mutation at one tree locus). -/
def modifyChildren {α : Type} (f : List DomNode → Option (α × List DomNode)) :
    List DomNode → List Nat → Option (α × List DomNode)
  | ds, [] => f ds
  | ds, i :: rest =>
    match ds[i]? with
    | some (.elem tg idA hl cs) =>
      (modifyChildren f cs rest).map
        (fun r => (r.1, ds.set i (.elem tg idA hl r.2)))
    | _ => none

/-! ## Ranges

A DOM `Range` value: each endpoint is a `(path, offset)` pair.  For a
text-node container the offset is a character offset; for an element
container it is a child index (the `findAppropriateContainer` fallback
produces such endpoints). -/

structure MRange where
  startPath : List Nat
  startOffset : Nat
  endPath : List Nat
  endOffset : Nat
deriving DecidableEq, Repr

/-- `Range.collapsed`: same container and same offset. -/
def rangeCollapsed (r : MRange) : Bool :=
  r.startPath = r.endPath && r.startOffset = r.endOffset

/-- Character position of a boundary inside the flattened text of a node
list, `none` when the path or the offset does not address the tree (a
stale boundary).  An empty path means the list itself is the container
and `off` is a child index; a text node must be the path's final node. -/
def boundaryPosList (ds : List DomNode) : List Nat → Nat → Option Nat
  | [], off =>
    if off ≤ ds.length then some (textContentList (ds.take off)).length
    else none
  | i :: rest, off =>
    match ds[i]? with
    | some (.text s) =>
      match rest with
      | [] =>
        if off ≤ s.length then
          some (off + (textContentList (ds.take i)).length)
        else none
      | _ :: _ => none
    | some (.elem _ _ _ cs) =>
      (boundaryPosList cs rest off).map
        (· + (textContentList (ds.take i)).length)
    | none => none

/-- Flattened character position of a boundary in the document.
The root container (`path = []`) is the body itself. -/
def boundaryPos (doc : Doc) (p : List Nat) (off : Nat) : Option Nat :=
  boundaryPosList doc p off

/-- `Range.toString` together with `Range.collapsed`: `none` models a
range one of whose endpoints no longer addresses the tree (every DOM
operation on it throws).  A `Range` object in the browser always has its
start boundary before its end boundary, so a pair of boundaries in the
wrong flat order is likewise rejected. -/
def rangeInfo (doc : Doc) (r : MRange) : Option (Bool × List Char) :=
  match boundaryPos doc r.startPath r.startOffset,
        boundaryPos doc r.endPath r.endOffset with
  | some s, some e =>
    if s ≤ e then
      some (rangeCollapsed r, ((textContentList doc).take e).drop s)
    else none
  | _, _ => none

/-- `Range.toString` with `""` for a stale range. -/
def rangeTextD (doc : Doc) (r : MRange) : List Char :=
  match rangeInfo doc r with
  | some i => i.2
  | none => []

/-! ## The highlight renderer

`applyHighlightDirect` (content.ts:462-510) and its two DOM strategies.
The model covers the range configurations the engine produces: both
endpoints in one text node, endpoints in two text children of the same
parent, and a start endpoint nested one element deeper than the end
endpoint.  Any other configuration is a range the model treats as one on
which the DOM operations throw.

`createHighlightElement` (content.ts:512-520) yields a `span` carrying
the class `text-highlight` and `data-highlight-id`; the inline
background color and the title attribute are presentation-only and are
not part of the tree model. -/

inductive RangeShape where
  | sameText (q : List Nat) (i : Nat) (s e : Nat)
  | siblings (q : List Nat) (i : Nat) (s : Nat) (j : Nat) (e : Nat)
  | nestedStart (q : List Nat) (i k : Nat) (s : Nat) (j : Nat) (e : Nat)
  | other
deriving DecidableEq, Repr

/-- Which of the modelled configurations a range's endpoint paths form. -/
def classifyRange (r : MRange) : RangeShape :=
  if r.startPath = r.endPath then
    match pathSplit r.startPath with
    | some (q, i) => .sameText q i r.startOffset r.endOffset
    | none => .other
  else
    match pathSplit r.startPath, pathSplit r.endPath with
    | some (qs, i), some (qe, j) =>
      if qs = qe then
        if i < j then .siblings qs i r.startOffset j r.endOffset else .other
      else
        match pathSplit qs with
        | some (q2, i2) =>
          if q2 = qe && i2 < j then
            .nestedStart qe i2 i r.startOffset j r.endOffset
          else .other
        | none => .other
    | _, _ => .other

/-- In-place wrap when both endpoints lie in text child `i`: the text
node is split at the offsets and the middle part moves into the span. -/
def wrapSameLocal (i s e : Nat) (hid : String) (ds : List DomNode) :
    Option (DomNode × List DomNode) :=
  match ds[i]? with
  | some (.text t) =>
    if s ≤ e ∧ e ≤ t.length then
      let filled := DomNode.elem "span" "" (some hid) [.text ((t.take e).drop s)]
      some (filled,
        ds.take i ++ [.text (t.take s), filled, .text (t.drop e)] ++
          ds.drop (i + 1))
    else none
  | _ => none

/-- In-place wrap when the endpoints lie in two text children `i < j` of
the same parent (only Text nodes are partially selected, so the DOM's
`surroundContents` succeeds): both boundary nodes are split and the span
receives the inner parts together with the wholly contained siblings. -/
def wrapSiblingsLocal (i s j e : Nat) (hid : String) (ds : List DomNode) :
    Option (DomNode × List DomNode) :=
  match ds[i]?, ds[j]? with
  | some (.text ti), some (.text tj) =>
    if i < j ∧ s ≤ ti.length ∧ e ≤ tj.length then
      let between := (ds.drop (i + 1)).take (j - (i + 1))
      let filled := DomNode.elem "span" "" (some hid)
        ([.text (ti.drop s)] ++ between ++ [.text (tj.take e)])
      some (filled,
        ds.take i ++ [.text (ti.take s), filled, .text (tj.drop e)] ++
          ds.drop (j + 1))
    else none
  | _, _ => none

/-- `Range.surroundContents` (content.ts:479).  A range partially
selecting a non-Text node (the nested configuration) throws
`InvalidStateError` before mutating; a stale range throws on its
validation step.  On success the filled span is also returned. -/
def surroundContents (doc : Doc) (r : MRange) (hid : String) :
    Except Unit (DomNode × Doc) :=
  match classifyRange r with
  | .sameText q i s e =>
    match modifyChildren (wrapSameLocal i s e hid) doc q with
    | some res => .ok res
    | none => .error ()
  | .siblings q i s j e =>
    match modifyChildren (wrapSiblingsLocal i s j e hid) doc q with
    | some res => .ok res
    | none => .error ()
  | .nestedStart _ _ _ _ _ _ => .error ()
  | .other => .error ()

/-- Where a collapsed range points after `extractContents`, the position
`insertNode` then inserts at. -/
inductive InsLocus where
  | inText (p : List Nat) (off : Nat)
  | inParent (q : List Nat) (idx : Nat)
deriving DecidableEq, Repr

/-- `extractContents` of a range inside one text node: the fragment gets
the middle part, the node keeps the two outer parts (as one node, per
the DOM's `replace data` step). -/
def extractSameLocal (i s e : Nat) (ds : List DomNode) :
    Option (List DomNode × List DomNode) :=
  match ds[i]? with
  | some (.text t) =>
    if s ≤ e ∧ e ≤ t.length then
      some ([.text ((t.take e).drop s)], ds.set i (.text (t.take s ++ t.drop e)))
    else none
  | _ => none

/-- `extractContents` across two text children of one parent: the
boundary nodes keep their outer parts, the fragment receives the inner
parts and the wholly contained siblings between them. -/
def extractSiblingsLocal (i s j e : Nat) (ds : List DomNode) :
    Option (List DomNode × List DomNode) :=
  match ds[i]?, ds[j]? with
  | some (.text ti), some (.text tj) =>
    if i < j ∧ s ≤ ti.length ∧ e ≤ tj.length then
      let between := (ds.drop (i + 1)).take (j - (i + 1))
      some ([.text (ti.drop s)] ++ between ++ [.text (tj.take e)],
        ds.take i ++ [.text (ti.take s), .text (tj.drop e)] ++ ds.drop (j + 1))
    else none
  | _, _ => none

/-- `extractContents` when the start lies in text child `k` of element
child `i` and the end in text child `j` of the parent: per the DOM
algorithm the partially contained element is shallow-cloned; the
original keeps the out-of-range part, the clone enters the fragment with
the in-range part. -/
def extractNestedLocal (i k s j e : Nat) (ds : List DomNode) :
    Option (List DomNode × List DomNode) :=
  match ds[i]?, ds[j]? with
  | some (.elem tg idA hl cs), some (.text tj) =>
    match cs[k]? with
    | some (.text tk) =>
      if i < j ∧ s ≤ tk.length ∧ e ≤ tj.length then
        let keep := DomNode.elem tg idA hl (cs.take k ++ [.text (tk.take s)])
        let clone := DomNode.elem tg idA hl
          ([.text (tk.drop s)] ++ cs.drop (k + 1))
        let between := (ds.drop (i + 1)).take (j - (i + 1))
        some ([clone] ++ between ++ [.text (tj.take e)],
          ds.take i ++ [keep, .text (tj.drop e)] ++ ds.drop (j + 1))
      else none
    | _ => none
  | _, _ => none

/-- `Range.extractContents` (content.ts:490).  Returns the fragment, the
mutated tree, and the collapsed position the range points at afterwards
(per the DOM algorithm: inside the split text node for the one-node
case, after child `i` of the shared parent otherwise). -/
def extractContents (doc : Doc) (r : MRange) :
    Except Unit (List DomNode × Doc × InsLocus) :=
  match classifyRange r with
  | .sameText q i s e =>
    match modifyChildren (extractSameLocal i s e) doc q with
    | some (frag, doc') => .ok (frag, doc', .inText (q ++ [i]) s)
    | none => .error ()
  | .siblings q i s j e =>
    match modifyChildren (extractSiblingsLocal i s j e) doc q with
    | some (frag, doc') => .ok (frag, doc', .inParent q (i + 1))
    | none => .error ()
  | .nestedStart q i k s j e =>
    match modifyChildren (extractNestedLocal i k s j e) doc q with
    | some (frag, doc') => .ok (frag, doc', .inParent q (i + 1))
    | none => .error ()
  | .other => .error ()

/-- `insertNode` at a position inside a text node: the node is split at
the offset and the new node inserted between the parts. -/
def insertLocalText (i off : Nat) (n : DomNode) (ds : List DomNode) :
    Option (Unit × List DomNode) :=
  match ds[i]? with
  | some (.text t) =>
    if off ≤ t.length then
      some ((),
        ds.take i ++ [.text (t.take off), n, .text (t.drop off)] ++
          ds.drop (i + 1))
    else none
  | _ => none

/-- `insertNode` at a child index of an element container. -/
def insertLocalChild (idx : Nat) (n : DomNode) (ds : List DomNode) :
    Option (Unit × List DomNode) :=
  if idx ≤ ds.length then some ((), ds.take idx ++ [n] ++ ds.drop idx)
  else none

/-- `Range.insertNode` (content.ts:498) at a collapsed locus. -/
def insertNodeAt (doc : Doc) (l : InsLocus) (n : DomNode) : Option Doc :=
  match l with
  | .inText p off =>
    match pathSplit p with
    | some (q, i) => (modifyChildren (insertLocalText i off n) doc q).map (·.2)
    | none => none
  | .inParent q idx => (modifyChildren (insertLocalChild idx n) doc q).map (·.2)

/-- `applyHighlightDirect` (content.ts:462-510), as a function from the
tree and the range to the produced element list and the new tree.  Every
thrown DOM error is caught by the function's `try`/`catch` layers; the
returned element list is empty exactly on the failure paths. -/
def applyHighlightDirect (doc : Doc) (r : MRange) (hid : String) :
    List DomNode × Doc :=
  match rangeInfo doc r with
  | none => ([], doc)
  | some (collapsed, txt) =>
    if collapsed || (trimChars txt).isEmpty then ([], doc)
    else
      match surroundContents doc r hid with
      | .ok (sp, doc') => ([sp], doc')
      | .error _ =>
        match extractContents doc r with
        | .error _ => ([], doc)
        | .ok (frag, doc', locus) =>
          if (trimChars (textContentList frag)).isEmpty then ([], doc')
          else
            let filled := DomNode.elem "span" "" (some hid) frag
            match insertNodeAt doc' locus filled with
            | some doc'' => ([filled], doc'')
            | none => ([], doc')

/-! ## Unwrap and normalize -/

mutual
/-- Replace every highlight wrapper carrying `data-highlight-id = hid`
by its children, in place (the loop of content.ts:1157-1164 over the
stored wrapper elements, which are exactly the wrappers carrying the
highlight's id). -/
def unwrapNode (hid : String) : DomNode → List DomNode
  | .text s => [.text s]
  | .elem tg idA hl cs =>
    let cs' := unwrapList hid cs
    if hl = some hid then cs' else [.elem tg idA hl cs']

/-- `unwrapNode` over a child list. -/
def unwrapList (hid : String) : List DomNode → List DomNode
  | [] => []
  | c :: cs => unwrapNode hid c ++ unwrapList hid cs
end

mutual
/-- `Node.normalize()` below one node. -/
def normalizeNode : DomNode → DomNode
  | .text a => .text a
  | .elem tg idA hl cs => .elem tg idA hl (normalizeList cs)

/-- `Node.normalize()`: remove empty text nodes and merge adjacent text
nodes, recursively. -/
def normalizeList : List DomNode → List DomNode
  | [] => []
  | c :: rest =>
    match normalizeNode c with
    | .text a =>
      match normalizeList rest with
      | .text b :: rest' =>
        if (a ++ b).isEmpty then rest' else .text (a ++ b) :: rest'
      | rest' => if a.isEmpty then rest' else .text a :: rest'
    | d => d :: normalizeList rest
end

/-- The DOM effect of `removeHighlight` (content.ts:1157-1166): each
stored wrapper is replaced by its children and the affected parents are
normalized (modelled as normalizing the whole tree, which has the same
text content). -/
def removeHighlightDom (hid : String) (doc : Doc) : Doc :=
  normalizeList (unwrapList hid doc)

/-! ## The selection normalizer (word-boundary completion) -/

/-- The backward loop of `completeWordStart` (content.ts:625-627):
`while (offset > 0 && !isWordBoundary(text[offset - 1])) offset--`. -/
def wordStartBack (t : List Char) : Nat → Nat
  | 0 => 0
  | o + 1 => if isWordBoundaryChar (t.getD o ' ') then o + 1 else wordStartBack t o

/-- The forward loop of `completeWordEnd`, scanning the suffix of the
text that starts at the current offset. -/
def wordEndFwdGo : List Char → Nat → Nat
  | [], o => o
  | c :: rest, o =>
    if isWordBoundaryChar c then o else wordEndFwdGo rest (o + 1)

/-- The forward loop of `completeWordEnd` (content.ts:655-657):
`while (offset < text.length && !isWordBoundary(text[offset])) offset++`. -/
def wordEndFwd (t : List Char) (o : Nat) : Nat :=
  wordEndFwdGo (t.drop o) o

/-- `completeWordStart` (content.ts:606-634). -/
def completeWordStart (doc : Doc) (r : MRange) : MRange :=
  match nodeAt doc r.startPath with
  | some (.text t) =>
    if r.startOffset > t.length then r
    else if r.startOffset = 0 ||
        isWordBoundaryChar (t.getD (r.startOffset - 1) ' ') then r
    else
      let o := wordStartBack t r.startOffset
      if o ≤ r.endOffset then { r with startOffset := o } else r
  | _ => r

/-- `completeWordEnd` (content.ts:636-664). -/
def completeWordEnd (doc : Doc) (r : MRange) : MRange :=
  match nodeAt doc r.endPath with
  | some (.text t) =>
    if r.endOffset > t.length then r
    else if r.endOffset ≥ t.length ||
        isWordBoundaryChar (t.getD r.endOffset ' ') then r
    else
      let o := wordEndFwd t r.endOffset
      if r.startOffset ≤ o then { r with endOffset := o } else r
  | _ => r

/-- `completeWordBoundaries` (content.ts:588-604): a disconnected
container (a path that no longer addresses a node) returns the input
unchanged; otherwise start completion runs before end completion on the
same cloned range. -/
def completeWordBoundaries (doc : Doc) (r : MRange) : MRange :=
  if (nodeAt doc r.startPath).isNone || (nodeAt doc r.endPath).isNone then r
  else completeWordEnd doc (completeWordStart doc r)

/-- `completeWordSelection` (content.ts:545-586). -/
def completeWordSelection (doc : Doc) (r : MRange) : MRange :=
  if rangeCollapsed r || (trimChars (rangeTextD doc r)).isEmpty then r
  else
    let wordCompleted := completeWordBoundaries doc r
    if rangeCollapsed wordCompleted then r
    else
      let completedText := rangeTextD doc wordCompleted
      if (trimChars completedText).isEmpty then r
      else if completedText ≠ rangeTextD doc r then wordCompleted
      else r

/-- `applyHighlightWithCompletion` (content.ts:438-460), the body of
`applyHighlight` for fresh user selections. -/
def applyHighlightWithCompletion (doc : Doc) (r : MRange) (hid : String) :
    List DomNode × Doc :=
  let expanded := completeWordSelection doc r
  if rangeCollapsed expanded || (trimChars (rangeTextD doc expanded)).isEmpty
  then ([], doc)
  else applyHighlightDirect doc expanded hid

/-! ## The anchor serializer -/

mutual
/-- Pre-order text descendants of a node (the `SHOW_TEXT` tree walk). -/
def deepTextsNode : DomNode → List (List Char)
  | .text s => [s]
  | .elem _ _ _ cs => deepTextsList cs

/-- Pre-order text descendants of a child list. -/
def deepTextsList : List DomNode → List (List Char)
  | [] => []
  | c :: cs => deepTextsNode c ++ deepTextsList cs
end

/-- The walker loop of `getContainerInfo` (content.ts:714-721): walk the
text descendants of the parent, stopping at the container (the direct
child at index `i`); returns `(textIndex, accumulated length)`. -/
def walkCount : List DomNode → Nat → Nat × Nat
  | _, 0 => (0, 0)
  | [], _ + 1 => (0, 0)
  | d :: ds, i + 1 =>
    let dts := deepTextsNode d
    let rest := walkCount ds i
    (dts.length + rest.1, (dts.map List.length).sum + rest.2)

/-- A structural address produced by `getSimpleXPath`: either the
identifier-based short-circuit `//*[@id="…"]` or the chain
`//tag[i]/tag[j]/…` of `(tagName, 1-based same-tag sibling index)`
steps from a child of the body down to the element.  `byPath []` models
the empty string the function returns for the body itself. -/
inductive XPathAddr where
  | byId (idAttr : String)
  | byPath (chain : List (String × Nat))
deriving DecidableEq, Repr

/-- Number of elements with the given tag in a node list (the
`previousElementSibling` counting loop of content.ts:758-764 counts
exactly the same-tag elements before the current one). -/
def countSameTag (ds : List DomNode) (tag : String) : Nat :=
  ds.countP (fun d => match d with | .elem tg _ _ _ => tg = tag | _ => false)

/-- The bottom-up loop of `getSimpleXPath` (content.ts:753-768), on the
reversed path (leaf child index first). -/
def buildChainRev (doc : Doc) : List Nat → Option (List (String × Nat))
  | [] => some []
  | i :: qrev => do
    let sibs ← childrenAt doc qrev.reverse
    match sibs[i]? with
    | some (.elem tag _ _ _) =>
      let rest ← buildChainRev doc qrev
      pure (rest ++ [(tag, 1 + countSameTag (sibs.take i) tag)])
    | _ => none

/-- `getSimpleXPath` (content.ts:742-775) for the element at path `p`
(`[]` = the body, for which the loop runs zero times and the empty
string is returned). -/
def getSimpleXPath (doc : Doc) (p : List Nat) : Option XPathAddr :=
  match p with
  | [] => some (.byPath [])
  | _ :: _ =>
    match nodeAt doc p with
    | some (.elem _ idAttr _ _) =>
      if idAttr ≠ "" then some (.byId idAttr)
      else (buildChainRev doc p.reverse).map .byPath
    | _ => none

/-- One endpoint of a serialized range. -/
structure CInfo where
  xpath : XPathAddr
  offset : Nat
  textIndex : Nat
deriving DecidableEq, Repr

/-- `getContainerInfo` (content.ts:697-740).  For a text-node container
the stored offset accumulates the lengths of the parent's earlier text
descendants; for an element container the offset is kept as-is. -/
def getContainerInfo (doc : Doc) (p : List Nat) (off : Nat) : Option CInfo :=
  match nodeAt doc p with
  | some (.text _) =>
    match pathSplit p with
    | some (q, i) => do
      let sibs ← childrenAt doc q
      let xp ← getSimpleXPath doc q
      let wc := walkCount sibs i
      pure ⟨xp, wc.2 + off, wc.1⟩
    | none => none
  | some (.elem _ _ _ _) => do
    let xp ← getSimpleXPath doc p
    pure ⟨xp, off, 0⟩
  | none => none

/-- A persisted location descriptor (`SerializedRange` in
`src/utils/types.ts`). -/
structure SerializedRange where
  startXPath : XPathAddr
  startOffset : Nat
  startTextIndex : Nat
  endXPath : XPathAddr
  endOffset : Nat
  endTextIndex : Nat
  text : List Char
deriving DecidableEq, Repr

/-- `serializeRange` (content.ts:671-695). -/
def serializeRange (doc : Doc) (r : MRange) : Option SerializedRange := do
  let si ← getContainerInfo doc r.startPath r.startOffset
  let ei ← getContainerInfo doc r.endPath r.endOffset
  let info ← rangeInfo doc r
  pure ⟨si.xpath, si.offset, si.textIndex, ei.xpath, ei.offset, ei.textIndex,
    info.2⟩

/-! ## The anchor resolver -/

/-- Child index of the `n`-th (1-based) element child with a tag,
starting the scan at index `idx`. -/
def nthTagIndex : List DomNode → String → Nat → Nat → Option Nat
  | [], _, _, _ => none
  | d :: ds, tag, n, idx =>
    match d with
    | .elem tg _ _ _ =>
      if tg = tag then
        if n ≤ 1 then some idx else nthTagIndex ds tag (n - 1) (idx + 1)
      else nthTagIndex ds tag n (idx + 1)
    | _ => nthTagIndex ds tag n (idx + 1)

/-- Resolve a chain of `tag[n]` steps as strict child steps from a
given child list. -/
def matchChainFrom (ds : List DomNode) : List (String × Nat) → Option (List Nat)
  | [] => none
  | (tag, n) :: rest =>
    match nthTagIndex ds tag n 0 with
    | some j =>
      match rest with
      | [] => some [j]
      | _ :: _ =>
        match ds[j]? with
        | some (.elem _ _ _ cs) => (matchChainFrom cs rest).map (j :: ·)
        | _ => none
    | none => none

mutual
/-- A `//`-anchored chain may start at any depth: try the chain with
this element's children as context, else descend. -/
def deepChainNode (chain : List (String × Nat)) : DomNode → Option (List Nat)
  | .text _ => none
  | .elem _ _ _ cs =>
    match matchChainFrom cs chain with
    | some p => some p
    | none => deepChainChildren chain 0 cs

/-- Scan children in document order for a context in which the chain
matches. -/
def deepChainChildren (chain : List (String × Nat)) (i : Nat) :
    List DomNode → Option (List Nat)
  | [] => none
  | d :: ds =>
    match deepChainNode chain d with
    | some p => some (i :: p)
    | none => deepChainChildren chain (i + 1) ds
end

/-- Resolve a `//`-anchored chain against the whole document: the body's
children are the first context, then every descendant element's children
in document order (approximates `XPathResult.FIRST_ORDERED_NODE_TYPE`). -/
def searchChainList (ds : List DomNode) (chain : List (String × Nat)) :
    Option (List Nat) :=
  match matchChainFrom ds chain with
  | some p => some p
  | none => deepChainChildren chain 0 ds

mutual
/-- Path of the first element in pre-order with the given `id`
attribute, scanning a child list from index `i`. -/
def findByIdList (s : String) (i : Nat) : List DomNode → Option (List Nat)
  | [] => none
  | d :: ds =>
    match findByIdNode s d with
    | some p => some (i :: p)
    | none => findByIdList s (i + 1) ds

/-- Path of the first element with the given `id` inside one node. -/
def findByIdNode (s : String) : DomNode → Option (List Nat)
  | .text _ => none
  | .elem _ idAttr _ cs => if idAttr = s then some [] else findByIdList s 0 cs
end

/-- `getElementByXPath` (content.ts:777-790): `none` is the caught
`document.evaluate` failure or an empty result.  Resolving the empty
expression (`byPath []`) throws, hence `none`. -/
def getElementByXPath (doc : Doc) : XPathAddr → Option (List Nat)
  | .byId s => findByIdList s 0 doc
  | .byPath [] => none
  | .byPath (c :: chain) => searchChainList doc (c :: chain)

/-- The text nodes an `acceptNode` filter keeps: those whose parent
element is not a highlight wrapper, with their paths below the root. -/
def eligibleTextsOf (root : DomNode) : List (List Nat × List Char) :=
  ((textNodesNode false root).filter (fun x => !x.2.2)).map
    (fun x => (x.1, x.2.1))

/-- Eligible text nodes of the whole document (walker rooted at the
body, whose own text children have the body as parent). -/
def docEligibleTexts (doc : Doc) : List (List Nat × List Char) :=
  ((textNodesList false 0 doc).filter (fun x => !x.2.2)).map
    (fun x => (x.1, x.2.1))

/-- The accumulation loop of `findAppropriateContainer`
(content.ts:882-894). -/
def pickTextNode : List (List Nat × List Char) → Nat → Nat →
    Option (List Nat × Nat)
  | [], _, _ => none
  | (p, s) :: rest, off, acc =>
    if acc + s.length ≥ off then some (p, min (off - acc) s.length)
    else pickTextNode rest off (acc + s.length)

/-- `findAppropriateContainer` (content.ts:853-902): locate the text
node holding a flattened offset under the resolved element, with the
code's element-container and last-text-node fallbacks.  Returns the
container's path below the element (`[]` = the element itself) and the
node-local offset. -/
def findAppropriateContainer (root : DomNode) (off : Nat) : List Nat × Nat :=
  let tns := eligibleTextsOf root
  match tns with
  | [] =>
    match root with
    | .elem _ _ _ cs =>
      if cs.length > 0 then ([], min off (cs.length - 1)) else ([], 0)
    | .text _ => ([], 0)
  | _ :: _ =>
    match pickTextNode tns off 0 with
    | some res => res
    | none =>
      match tns.getLast? with
      | some (p, s) => (p, s.length)
      | none => ([], 0)

/-- `document.createRange()` followed by `setStart`/`setEnd`: if the end
boundary lies before the start boundary the DOM collapses the range to
the end boundary (boundary order approximated by flattened position). -/
def mkDomRange (doc : Doc) (ps : List Nat) (so : Nat) (pe : List Nat)
    (eo : Nat) : MRange :=
  match boundaryPos doc ps so, boundaryPos doc pe eo with
  | some a, some b => if b < a then ⟨pe, eo, pe, eo⟩ else ⟨ps, so, pe, eo⟩
  | _, _ => ⟨ps, so, pe, eo⟩

/-- The walker loop of `exactTextSearch` (content.ts:938-966). -/
def exactTextSearchGo (doc : Doc) (searchText : List Char) :
    List (List Nat × List Char) → Option MRange
  | [] => none
  | (p, nodeText) :: rest =>
    match firstIndexOf nodeText searchText with
    | some idx =>
      let r : MRange := ⟨p, idx, p, idx + searchText.length⟩
      if rangeCollapsed r then exactTextSearchGo doc searchText rest
      else if (trimChars (rangeTextD doc r)).isEmpty then
        exactTextSearchGo doc searchText rest
      else some r
    | none => exactTextSearchGo doc searchText rest

/-- `exactTextSearch` (content.ts:925-969): first verbatim occurrence of
the search text inside a single eligible text node, in document order. -/
def exactTextSearch (doc : Doc) (searchText : List Char) : Option MRange :=
  exactTextSearchGo doc searchText (docEligibleTexts doc)

/-- The start-position mapping loop of `fuzzyTextSearch`
(content.ts:999-1007), scanning the remaining suffix of the original
text (`rem = orig.drop i`); falls back to `0` when the loop runs out
without reaching the normalized index. -/
def fuzzyFindStartGo (orig : List Char) (index : Nat) :
    List Char → Nat → Nat → Nat
  | [], _, _ => 0
  | c :: rem, i, npos =>
    if npos = index then i
    else
      let cond := !isJsWhitespace c ||
        (i = 0 || !isJsWhitespace (orig.getD (i - 1) ' '))
      fuzzyFindStartGo orig index rem (i + 1) (if cond then npos + 1 else npos)

/-- The end-position mapping loop of `fuzzyTextSearch`
(content.ts:1013-1020), scanning the suffix of the original text that
starts at the mapped start position. -/
def fuzzyFindEndGo (nsearch : List Char) :
    List Char → Nat → Nat → Nat → Nat
  | [], _, _, aEnd => aEnd
  | c :: rem, i, mlen, aEnd =>
    if mlen < nsearch.length then
      let cond := !isJsWhitespace c ||
        (decide (mlen > 0) && (nsearch.getD mlen ' ' = ' '))
      fuzzyFindEndGo nsearch rem (i + 1) (if cond then mlen + 1 else mlen)
        (i + 1)
    else aEnd

/-- The walker loop of `fuzzyTextSearch` (content.ts:986-1032): a range
whose mapped end does not lie after its mapped start is collapsed by
`setEnd` and rejected by the `!range.collapsed` check. -/
def fuzzyTextSearchGo (nsearch : List Char) :
    List (List Nat × List Char) → Option MRange
  | [] => none
  | (p, orig) :: rest =>
    match firstIndexOf (collapseWs orig) nsearch with
    | some index =>
      let aStart := fuzzyFindStartGo orig index orig 0 0
      let aEnd := fuzzyFindEndGo nsearch (orig.drop aStart) aStart 0 aStart
      if aStart < aEnd ∧ ¬(trimChars ((orig.take aEnd).drop aStart)).isEmpty
      then some ⟨p, aStart, p, aEnd⟩
      else fuzzyTextSearchGo nsearch rest
    | none => fuzzyTextSearchGo nsearch rest

/-- `fuzzyTextSearch` (content.ts:971-1035): whitespace-normalized
search with position mapping back into the original text. -/
def fuzzyTextSearch (doc : Doc) (searchText : List Char) : Option MRange :=
  fuzzyTextSearchGo (collapseWs searchText) (docEligibleTexts doc)

/-- `partialTextSearch` (content.ts:1037-1046): re-run the exact search
on the first up-to-three whitespace-delimited tokens of length `> 2`. -/
def fallbackTokenSearch (doc : Doc) (searchText : List Char) : Option MRange :=
  let words := (wsTokens searchText).filter (fun w => w.length > 2)
  match words with
  | [] => none
  | _ :: _ => exactTextSearch doc (joinSpace (words.take 3))

/-- `simpleTextSearch` (content.ts:904-923): the fallback strategy
chain, first success wins. -/
def simpleTextSearch (doc : Doc) (text : List Char) : Option MRange :=
  if (trimChars text).isEmpty then none
  else
    let searchText := trimChars text
    match exactTextSearch doc searchText with
    | some r => some r
    | none =>
      match fuzzyTextSearch doc searchText with
      | some r => some r
      | none => fallbackTokenSearch doc searchText

/-- `deserializeRange` (content.ts:792-851). -/
def deserializeRange (doc : Doc) (sr : SerializedRange) : Option MRange :=
  if (trimChars sr.text).isEmpty then none
  else
    match getElementByXPath doc sr.startXPath,
          getElementByXPath doc sr.endXPath with
    | some ps, some pe =>
      match nodeAt doc ps, nodeAt doc pe with
      | some sEl, some eEl =>
        let sc := findAppropriateContainer sEl sr.startOffset
        let ec := findAppropriateContainer eEl sr.endOffset
        let r := mkDomRange doc (ps ++ sc.1) sc.2 (pe ++ ec.1) ec.2
        if rangeCollapsed r then simpleTextSearch doc sr.text
        else
          let rText := rangeTextD doc r
          if (trimChars rText).isEmpty then simpleTextSearch doc sr.text
          else
            let no := lowerChars (trimChars sr.text)
            let nr := lowerChars (trimChars rText)
            if nr ≠ no && !containsSub nr no then simpleTextSearch doc sr.text
            else some r
      | _, _ => simpleTextSearch doc sr.text
    | _, _ => simpleTextSearch doc sr.text

/-! ## Engine state: the highlight maps, removal, revalidation, creation -/

/-- A persisted highlight record (`HighlightData` in
`src/utils/types.ts`). -/
structure HighlightData where
  id : String
  text : List Char
  url : String
  timestamp : Nat
  color : String
  note : Option (List Char)
  range : SerializedRange
deriving DecidableEq, Repr

/-- The in-memory state of a `HighlightManager`: the live tree, the
`highlights` map and the `highlightElements` render set (JS `Map`s as
association lists in insertion order). -/
structure EngineState where
  doc : Doc
  highlights : List (String × HighlightData)
  highlightElements : List (String × List DomNode)
deriving DecidableEq, Repr

/-- `Map.set`: replace in place, else append. -/
def setAssoc {α : Type} (k : String) (v : α) :
    List (String × α) → List (String × α)
  | [] => [(k, v)]
  | (k', v') :: rest =>
    if k' = k then (k, v) :: rest else (k', v') :: setAssoc k v rest

/-- `Map.delete`. -/
def eraseAssoc {α : Type} (k : String) :
    List (String × α) → List (String × α)
  | [] => []
  | (k', v') :: rest => if k' = k then rest else (k', v') :: eraseAssoc k rest

/-- Messages the content script sends to the background store
(`chrome.runtime.sendMessage`). -/
inductive StoreMsg where
  | saveMsg (h : HighlightData)
  | removeMsg (id : String)
  | updateMsg (h : HighlightData)
deriving DecidableEq, Repr

/-- `removeHighlight` (content.ts:1153-1175): with no render-set entry
the call returns at once; otherwise the wrappers are unwrapped, both
maps lose the id and a `REMOVE_HIGHLIGHT` message is sent. -/
def removeHighlight (st : EngineState) (hid : String) :
    EngineState × List StoreMsg :=
  match List.lookup hid st.highlightElements with
  | none => (st, [])
  | some _ =>
    ({ doc := removeHighlightDom hid st.doc,
       highlights := eraseAssoc hid st.highlights,
       highlightElements := eraseAssoc hid st.highlightElements },
     [.removeMsg hid])

mutual
/-- `document.body.contains(n)` relative to one candidate node
(structural identity models JS node identity). -/
def nodeContains (n : DomNode) : DomNode → Bool
  | .text s => DomNode.text s == n
  | .elem tg idA hl cs =>
    DomNode.elem tg idA hl cs == n || listContainsNode n cs

/-- `nodeContains` over a child list. -/
def listContainsNode (n : DomNode) : List DomNode → Bool
  | [] => false
  | d :: ds => nodeContains n d || listContainsNode n ds
end

/-- `document.body.contains(n)` for the whole tree. -/
def docContains (doc : Doc) (n : DomNode) : Bool := listContainsNode n doc

/-- Longest common stem of two paths (the path of
`commonAncestorContainer` for two container paths). -/
def commonStem : List Nat → List Nat → List Nat
  | a :: as, b :: bs => if a = b then a :: commonStem as bs else []
  | _, _ => []

/-- `isRangeAlreadyHighlighted` (content.ts:1100-1107): look only at the
range's common ancestor container (its parent element when it is a text
node) and compare its `data-highlight-id`. -/
def isRangeAlreadyHighlighted (doc : Doc) (r : MRange) (hid : String) : Bool :=
  let ca := commonStem r.startPath r.endPath
  let cPath :=
    match nodeAt doc ca with
    | some (.text _) => ca.dropLast
    | _ => ca
  match nodeAt doc cPath with
  | some (.elem _ _ (some h) _) => h = hid
  | _ => false

/-- One iteration of the `forEach` of `validateAndRestoreHighlights`
(content.ts:1110-1125), threading the state and a counter of
resolve/render operations performed. -/
def validateStep (acc : EngineState × Nat) (entry : String × List DomNode) :
    EngineState × Nat :=
  let (st, ops) := acc
  let (hid, els) := entry
  if els.all (fun el => docContains st.doc el) then (st, ops)
  else
    match List.lookup hid st.highlights with
    | none => (st, ops)
    | some hd =>
      match deserializeRange st.doc hd.range with
      | none => (st, ops + 1)
      | some r =>
        if isRangeAlreadyHighlighted st.doc r hid then (st, ops + 1)
        else
          let res := applyHighlightDirect st.doc r hid
          if res.1.isEmpty then ({ st with doc := res.2 }, ops + 2)
          else
            ({ st with
                doc := res.2,
                highlightElements := setAssoc hid res.1 st.highlightElements },
             ops + 2)

/-- `validateAndRestoreHighlights` (content.ts:1109-1126): the
revalidation pass over the render set, returning the new state and the
number of resolve/render operations it performed. -/
def validateAndRestoreHighlights (st : EngineState) : EngineState × Nat :=
  st.highlightElements.foldl validateStep (st, 0)

/-- Result of `createHighlightFromStoredRange`: the state after the
call, the store messages sent, and the thrown error if any. -/
structure CreateResult where
  st : EngineState
  msgs : List StoreMsg
  err : Option String
deriving DecidableEq, Repr

/-- `createHighlightFromStoredRange` (content.ts:323-397).  `newId`,
`url` and `now` stand for `generateId()`, `window.location.href` and
`Date.now()`. -/
def createHighlightFromStoredRange (st : EngineState)
    (storedRange : Option MRange) (color : String) (newId : String)
    (url : String) (now : Nat) : CreateResult :=
  match storedRange with
  | none => ⟨st, [], some "No stored range available"⟩
  | some range =>
    match rangeInfo st.doc range with
    | none => ⟨st, [], some "Stored range is no longer valid - DOM has changed"⟩
    | some info =>
      if info.1 then ⟨st, [], some "Stored range is collapsed"⟩
      else if (trimChars info.2).isEmpty then
        ⟨st, [], some "No text in stored range"⟩
      else
        match serializeRange st.doc range with
        | none => ⟨st, [], some "Failed to serialize selection range"⟩
        | some sr =>
          let hd : HighlightData := ⟨newId, info.2, url, now, color, none, sr⟩
          let res := applyHighlightWithCompletion st.doc range newId
          if res.1.isEmpty then
            ⟨{ st with doc := res.2 }, [],
              some "No highlight elements were created"⟩
          else
            ⟨{ doc := res.2,
               highlights := setAssoc newId hd st.highlights,
               highlightElements := setAssoc newId res.1 st.highlightElements },
             [.saveMsg hd], none⟩

/-! ## The storage manager (`src/utils/storage.ts`) -/

/-- `StorageManager.saveHighlight` (storage.ts:12-23): replace the first
record with the same id in place, else append. -/
def saveHighlight (highlights : List HighlightData) (h : HighlightData) :
    List HighlightData :=
  match highlights.findIdx? (fun x => x.id = h.id) with
  | some i => highlights.set i h
  | none => highlights ++ [h]

/-- `StorageManager.deleteHighlight` (storage.ts:25-29). -/
def deleteHighlight (highlights : List HighlightData) (i : String) :
    List HighlightData :=
  highlights.filter (fun h => h.id ≠ i)

/-! ## Spec-side definitions

Definitions below follow the specification's wording; the theorems
compare them with the code-side definitions above. -/

/-- Shorthand for writing concrete text content. -/
def strL (s : String) : List Char := s.toList

/-- Spec side of C4: the chain of `(tagName, siblingIndex)` pairs along
the path from the root, where `siblingIndex` is `1 +` the number of
same-tag elements among the earlier siblings. -/
def specChain (ds : List DomNode) : List Nat → Option (List (String × Nat))
  | [] => some []
  | i :: rest =>
    match ds[i]? with
    | some (.elem tag _ _ cs) =>
      (specChain cs rest).map
        (fun ch => (tag, 1 + countSameTag (ds.take i) tag) :: ch)
    | _ => none

/-- Number of positions at which `needle` occurs verbatim in `hay`
(used to state that an anchor text occurs at exactly one position in the
document's flattened text). -/
def occCount (hay needle : List Char) : Nat :=
  ((List.range (hay.length + 1)).filter
    (fun k => headMatches (hay.drop k) needle)).length

/-! # Theorems -/

/-! ## Basic text-content lemmas -/

@[simp]
theorem textContentList_nil : textContentList [] = [] := rfl

@[simp]
theorem textContentList_cons (d : DomNode) (ds : List DomNode) :
    textContentList (d :: ds) = textContentNode d ++ textContentList ds := by
  rw [textContentList]

@[simp]
theorem textContentList_append (xs ys : List DomNode) :
    textContentList (xs ++ ys) = textContentList xs ++ textContentList ys := by
  induction xs with
  | nil => simp
  | cons d ds ih => simp [ih]

/-- Decompose a list at a position known to hold a value. -/
theorem list_decomp_at {α : Type} (ds : List α) (i : Nat) (x : α)
    (h : ds[i]? = some x) :
    ds = ds.take i ++ x :: ds.drop (i + 1) ∧ (ds.take i).length = i := by
  have hlt : i < ds.length := by
    by_contra hc
    rw [List.getElem?_eq_none (Nat.le_of_not_lt hc)] at h
    exact Option.noConfusion h
  have hx : ds[i] = x := by
    have := List.getElem?_eq_getElem hlt
    rw [this] at h
    exact Option.some.inj h
  constructor
  · conv_lhs => rw [← List.take_append_drop i ds]
    rw [List.drop_eq_getElem_cons hlt, hx]
  · exact List.length_take_of_le (Nat.le_of_lt hlt)

/-! ## C9: removal of an id with no render-set entry is a no-op -/

/-- C9: for every id with no current Render Set entry,
`removeHighlight(id)` returns normally as a no-op: the document tree,
the in-memory highlight map and the render set are unchanged, and no
message reaches the persistent store. -/
theorem removeHighlight_no_entry_noop (st : EngineState) (hid : String)
    (h : List.lookup hid st.highlightElements = none) :
    removeHighlight st hid = (st, []) := by
  unfold removeHighlight
  rw [h]

/-- Witness for C9 at a concrete state with an empty render set. -/
theorem removeHighlight_no_entry_noop_witness :
    List.lookup "h1" ([] : List (String × List DomNode)) = none ∧
    removeHighlight ⟨[DomNode.text (strL "hello")], [], []⟩ "h1" =
      (⟨[DomNode.text (strL "hello")], [], []⟩, []) :=
  ⟨rfl, removeHighlight_no_entry_noop ⟨[DomNode.text (strL "hello")], [], []⟩
    "h1" rfl⟩

/-! ## C1: failure of both render strategies leaves no partial state -/

/-- C1: whenever both the direct wrap (`surroundContents`) and the
extract-and-reinsert fallback fail on a range, `applyHighlightDirect`
returns an empty element list and the document tree — hence its text
content — is exactly what it was before the call. -/
theorem applyHighlightDirect_failure_atomic (doc : Doc) (r : MRange)
    (hid : String)
    (hs : surroundContents doc r hid = .error ())
    (he : extractContents doc r = .error ()) :
    applyHighlightDirect doc r hid = ([], doc) ∧
    textContentList (applyHighlightDirect doc r hid).2 = textContentList doc := by
  have main : applyHighlightDirect doc r hid = ([], doc) := by
    unfold applyHighlightDirect
    cases hinfo : rangeInfo doc r with
    | none => rfl
    | some info =>
      obtain ⟨c, txt⟩ := info
      by_cases hc : (c || (trimChars txt).isEmpty) = true
      · simp [hc]
      · simp [hc, hs, he]
  exact ⟨main, by rw [main]⟩

/-- Witness for C1: a stale range (its end offset exceeds the text
node's length), on which both strategies fail. -/
theorem applyHighlightDirect_failure_atomic_witness :
    surroundContents [DomNode.text (strL "hello")] ⟨[0], 2, [0], 9⟩ "h1" =
      .error () ∧
    extractContents [DomNode.text (strL "hello")] ⟨[0], 2, [0], 9⟩ =
      .error () ∧
    applyHighlightDirect [DomNode.text (strL "hello")] ⟨[0], 2, [0], 9⟩ "h1" =
      ([], [DomNode.text (strL "hello")]) :=
  ⟨rfl, rfl,
    (applyHighlightDirect_failure_atomic [DomNode.text (strL "hello")]
      ⟨[0], 2, [0], 9⟩ "h1" rfl rfl).1⟩

/-! ## C8: empty anchor text is rejected and never persisted -/

/-- C8: `createHighlightFromStoredRange` rejects a stored range whose
text is empty or whitespace-only before serializing — the state is
untouched, nothing is sent to the store and an error is thrown; every
record that is sent to the store has non-whitespace anchor text; and
`deserializeRange` returns `null` for a descriptor whose text field is
empty or whitespace-only. -/
theorem empty_anchor_text_never_persisted :
    (∀ (st : EngineState) (range : MRange) (color newId url : String)
        (now : Nat) (info : Bool × List Char),
      rangeInfo st.doc range = some info → (trimChars info.2).isEmpty = true →
        (createHighlightFromStoredRange st (some range) color newId url now).st
            = st ∧
        (createHighlightFromStoredRange st (some range) color newId url
            now).msgs = [] ∧
        (createHighlightFromStoredRange st (some range) color newId url
            now).err.isSome = true) ∧
    (∀ (st : EngineState) (sr : Option MRange) (color newId url : String)
        (now : Nat) (m : StoreMsg),
      m ∈ (createHighlightFromStoredRange st sr color newId url now).msgs →
        ∃ hd, m = .saveMsg hd ∧ (trimChars hd.text).isEmpty = false) ∧
    (∀ (doc : Doc) (sr : SerializedRange),
      (trimChars sr.text).isEmpty = true → deserializeRange doc sr = none) := by
  refine ⟨?_, ?_, ?_⟩
  · intro st range color newId url now info hinfo htrim
    by_cases hc : info.1 = true
    · simp [createHighlightFromStoredRange, hinfo, hc]
    · simp [createHighlightFromStoredRange, hinfo, hc, htrim]
  · intro st sr color newId url now m hm
    cases sr with
    | none => simp [createHighlightFromStoredRange] at hm
    | some range =>
      cases hinfo : rangeInfo st.doc range with
      | none => simp [createHighlightFromStoredRange, hinfo] at hm
      | some info =>
        by_cases hc : info.1 = true
        · simp [createHighlightFromStoredRange, hinfo, hc] at hm
        · by_cases ht : (trimChars info.2).isEmpty = true
          · simp [createHighlightFromStoredRange, hinfo, hc, ht] at hm
          · cases hser : serializeRange st.doc range with
            | none =>
              simp [createHighlightFromStoredRange, hinfo, hc, ht, hser] at hm
            | some sr' =>
              by_cases happ :
                  (applyHighlightWithCompletion st.doc range newId).1.isEmpty
                  = true
              · simp [createHighlightFromStoredRange, hinfo, hc, ht, hser,
                  happ] at hm
              · simp only [createHighlightFromStoredRange, hinfo, hc, ht,
                  hser, happ, Bool.false_eq_true, if_false, if_neg,
                  List.mem_singleton] at hm
                subst hm
                exact ⟨_, rfl, by simpa using ht⟩
  · intro doc sr h
    unfold deserializeRange
    simp [h]

/-- Witness for C8: a whitespace-only stored range is rejected without
any store message, and a whitespace-only descriptor deserializes to
`none`. -/
theorem empty_anchor_text_never_persisted_witness :
    rangeInfo [DomNode.text (strL " x ")] ⟨[0], 0, [0], 1⟩ =
      some (false, strL " ") ∧
    (trimChars (strL " ")).isEmpty = true ∧
    ((createHighlightFromStoredRange ⟨[DomNode.text (strL " x ")], [], []⟩
        (some ⟨[0], 0, [0], 1⟩) "yellow" "h1" "u" 0).st =
      ⟨[DomNode.text (strL " x ")], [], []⟩ ∧
      (createHighlightFromStoredRange ⟨[DomNode.text (strL " x ")], [], []⟩
        (some ⟨[0], 0, [0], 1⟩) "yellow" "h1" "u" 0).msgs = [] ∧
      (createHighlightFromStoredRange ⟨[DomNode.text (strL " x ")], [], []⟩
        (some ⟨[0], 0, [0], 1⟩) "yellow" "h1" "u" 0).err.isSome = true) :=
  ⟨rfl, rfl,
    empty_anchor_text_never_persisted.1 ⟨[DomNode.text (strL " x ")], [], []⟩
      ⟨[0], 0, [0], 1⟩ "yellow" "h1" "u" 0 (false, strL " ") rfl rfl⟩

/-! ## C10: `StorageManager.saveHighlight` is an upsert -/

theorem saveHighlight_cons_eq (a : HighlightData) (t : List HighlightData)
    (h : HighlightData) (ha : a.id = h.id) :
    saveHighlight (a :: t) h = h :: t := by
  unfold saveHighlight
  rw [List.findIdx?_cons]
  simp [ha]

theorem saveHighlight_cons_ne (a : HighlightData) (t : List HighlightData)
    (h : HighlightData) (hne : ¬a.id = h.id) :
    saveHighlight (a :: t) h = a :: saveHighlight t h := by
  unfold saveHighlight
  rw [List.findIdx?_cons]
  rw [decide_eq_false hne]
  simp only [Bool.false_eq_true, if_false, List.findIdx?_succ]
  cases hfi : t.findIdx? (fun x => decide (x.id = h.id)) with
  | none => simp [hfi]
  | some i => simp [hfi]

theorem saveHighlight_eq_upsert (l : List HighlightData) (h : HighlightData)
    (hnd : (l.map HighlightData.id).Nodup) :
    saveHighlight l h =
      (if l.any (fun x => x.id = h.id) then
        l.map (fun x => if x.id = h.id then h else x)
      else l ++ [h]) := by
  induction l with
  | nil => simp [saveHighlight]
  | cons a t ih =>
    simp only [List.map_cons, List.nodup_cons] at hnd
    obtain ⟨hna, hndt⟩ := hnd
    by_cases ha : a.id = h.id
    · rw [saveHighlight_cons_eq a t h ha]
      have hmap : t.map (fun x => if x.id = h.id then h else x) = t := by
        have : ∀ x ∈ t, (if x.id = h.id then h else x) = x := by
          intro x hx
          have : ¬x.id = h.id := by
            intro hxh
            exact hna (ha ▸ hxh ▸ List.mem_map_of_mem HighlightData.id hx)
          simp [this]
        simpa using List.map_congr_left this
      simp [ha, hmap]
    · rw [saveHighlight_cons_ne a t h ha, ih hndt]
      by_cases hat : t.any (fun x => x.id = h.id) = true
      · simp [ha, hat]
      · simp [ha, hat]

theorem saveHighlight_keeps_others (l : List HighlightData)
    (h : HighlightData) :
    (saveHighlight l h).filter (fun x => decide (x.id ≠ h.id)) =
      l.filter (fun x => decide (x.id ≠ h.id)) := by
  induction l with
  | nil =>
    unfold saveHighlight
    simp
  | cons a t ih =>
    by_cases ha : a.id = h.id
    · rw [saveHighlight_cons_eq a t h ha]
      simp [ha]
    · rw [saveHighlight_cons_ne a t h ha]
      simpa [ha] using ih

theorem countP_id_eq_one (l : List HighlightData) (v : String)
    (hnd : (l.map HighlightData.id).Nodup)
    (hany : l.any (fun x => x.id = v) = true) :
    l.countP (fun x => decide (x.id = v)) = 1 := by
  induction l with
  | nil => simp at hany
  | cons a t ih =>
    simp only [List.map_cons, List.nodup_cons] at hnd
    obtain ⟨hna, hndt⟩ := hnd
    by_cases ha : a.id = v
    · have hz : t.countP (fun x => decide (x.id = v)) = 0 := by
        rw [List.countP_eq_zero]
        intro x hx
        simp only [decide_eq_true_eq]
        intro hxv
        exact hna (ha ▸ hxv ▸ List.mem_map_of_mem HighlightData.id hx)
      simp [List.countP_cons, ha, hz]
    · have hat : t.any (fun x => x.id = v) = true := by
        simpa [ha] using hany
      simp [List.countP_cons, ha, ih hndt hat]

theorem saveHighlight_count_one (l : List HighlightData) (h : HighlightData)
    (hnd : (l.map HighlightData.id).Nodup) :
    (saveHighlight l h).count h = 1 := by
  rw [saveHighlight_eq_upsert l h hnd]
  by_cases hany : l.any (fun x => x.id = h.id) = true
  · rw [if_pos hany]
    rw [List.count_eq_countP, List.countP_map]
    have hcong : ∀ x ∈ l,
        ((fun b => b == h) ∘ fun x => if x.id = h.id then h else x) x = true ↔
          (fun x : HighlightData => decide (x.id = h.id)) x = true := by
      intro x hx
      by_cases hxh : x.id = h.id
      · simp [hxh]
      · have hxe : x ≠ h := fun hxe => hxh (by rw [hxe])
        simp [hxh, hxe]
    rw [List.countP_congr hcong]
    exact countP_id_eq_one l h.id hnd hany
  · rw [if_neg hany]
    have hz : l.count h = 0 := by
      rw [List.count_eq_zero]
      intro hmem
      exact hany (List.any_eq_true.mpr ⟨h, hmem, by simp⟩)
    simp [List.count_append, hz]

/-- C10: `StorageManager.saveHighlight` is an upsert changing at most
one record: for an id-duplicate-free stored list (the invariant the
storage module maintains), after `saveHighlight(r)` the list contains
`r` exactly once — the record with `r`'s id is replaced in place if one
exists, else `r` is appended at the end — and every record with a
different id is unchanged and keeps its relative order. -/
theorem saveHighlight_is_upsert (l : List HighlightData) (h : HighlightData)
    (hnd : (l.map HighlightData.id).Nodup) :
    (saveHighlight l h).count h = 1 ∧
    (saveHighlight l h).filter (fun x => decide (x.id ≠ h.id)) =
      l.filter (fun x => decide (x.id ≠ h.id)) ∧
    saveHighlight l h =
      (if l.any (fun x => x.id = h.id) then
        l.map (fun x => if x.id = h.id then h else x)
      else l ++ [h]) :=
  ⟨saveHighlight_count_one l h hnd, saveHighlight_keeps_others l h,
    saveHighlight_eq_upsert l h hnd⟩

/-- Witness for C10 at a concrete two-record store. -/
theorem saveHighlight_is_upsert_witness :
    (([⟨"a", strL "x", "u", 0, "yellow", none,
          ⟨.byPath [], 0, 0, .byPath [], 0, 0, strL "x"⟩⟩,
        ⟨"b", strL "y", "u", 0, "blue", none,
          ⟨.byPath [], 0, 0, .byPath [], 0, 0, strL "y"⟩⟩] :
        List HighlightData).map HighlightData.id).Nodup ∧
    (saveHighlight
        [⟨"a", strL "x", "u", 0, "yellow", none,
            ⟨.byPath [], 0, 0, .byPath [], 0, 0, strL "x"⟩⟩,
          ⟨"b", strL "y", "u", 0, "blue", none,
            ⟨.byPath [], 0, 0, .byPath [], 0, 0, strL "y"⟩⟩]
        ⟨"a", strL "z", "u", 1, "pink", none,
          ⟨.byPath [], 0, 0, .byPath [], 0, 0, strL "z"⟩⟩).count
      ⟨"a", strL "z", "u", 1, "pink", none,
        ⟨.byPath [], 0, 0, .byPath [], 0, 0, strL "z"⟩⟩ = 1 :=
  ⟨by decide,
    (saveHighlight_is_upsert
      [⟨"a", strL "x", "u", 0, "yellow", none,
          ⟨.byPath [], 0, 0, .byPath [], 0, 0, strL "x"⟩⟩,
        ⟨"b", strL "y", "u", 0, "blue", none,
          ⟨.byPath [], 0, 0, .byPath [], 0, 0, strL "y"⟩⟩]
      ⟨"a", strL "z", "u", 1, "pink", none,
        ⟨.byPath [], 0, 0, .byPath [], 0, 0, strL "z"⟩⟩ (by decide)).1⟩

/-! ## Word-completion loop lemmas -/

theorem wordStartBack_le (t : List Char) (o : Nat) : wordStartBack t o ≤ o := by
  induction o with
  | zero => exact Nat.le_refl 0
  | succ o ih =>
    unfold wordStartBack
    split
    · exact Nat.le_refl _
    · exact Nat.le_succ_of_le ih

theorem wordStartBack_region (t : List Char) (o : Nat) :
    ∀ k, wordStartBack t o ≤ k → k < o →
      isWordBoundaryChar (t.getD k ' ') = false := by
  induction o with
  | zero => intro k _ h2; exact absurd h2 (Nat.not_lt_zero k)
  | succ o ih =>
    intro k h1 h2
    unfold wordStartBack at h1
    by_cases hb : isWordBoundaryChar (t.getD o ' ') = true
    · rw [if_pos hb] at h1
      omega
    · rw [if_neg hb] at h1
      by_cases hk : k = o
      · subst hk
        simpa using hb
      · exact ih k h1 (by omega)

theorem wordStartBack_lands (t : List Char) (o : Nat) :
    wordStartBack t o = 0 ∨
      isWordBoundaryChar (t.getD (wordStartBack t o - 1) ' ') = true := by
  induction o with
  | zero => exact Or.inl rfl
  | succ o ih =>
    unfold wordStartBack
    by_cases hb : isWordBoundaryChar (t.getD o ' ') = true
    · rw [if_pos hb]
      right
      simpa using hb
    · rw [if_neg hb]
      exact ih

theorem wordEndFwdGo_ge (rem : List Char) (o : Nat) :
    o ≤ wordEndFwdGo rem o := by
  induction rem generalizing o with
  | nil => exact Nat.le_refl o
  | cons c rest ih =>
    unfold wordEndFwdGo
    split
    · exact Nat.le_refl o
    · exact Nat.le_of_succ_le (ih (o + 1))

theorem wordEndFwdGo_le (rem : List Char) (o : Nat) :
    wordEndFwdGo rem o ≤ o + rem.length := by
  induction rem generalizing o with
  | nil => exact Nat.le_add_right o 0
  | cons c rest ih =>
    unfold wordEndFwdGo
    split
    · exact Nat.le_add_right o _
    · have := ih (o + 1)
      simp only [List.length_cons]
      omega

theorem drop_cons_getD (t : List Char) (o : Nat) (c : Char) (rest : List Char)
    (h : t.drop o = c :: rest) :
    t.getD o ' ' = c ∧ t.drop (o + 1) = rest ∧ o < t.length := by
  have hlt : o < t.length := by
    by_contra hc
    rw [List.drop_of_length_le (Nat.le_of_not_lt hc)] at h
    exact List.noConfusion h
  have h0 : t[o]? = some c := by
    have := List.getElem?_drop t o 0
    rw [h] at this
    simpa using this.symm
  refine ⟨?_, ?_, hlt⟩
  · simp [List.getD, h0]
  · have : t.drop (o + 1) = (t.drop o).drop 1 := by
      rw [List.drop_drop]
    rw [this, h]
    rfl

theorem wordEndFwdGo_region (t : List Char) :
    ∀ (rem : List Char) (o : Nat), rem = t.drop o →
      ∀ k, o ≤ k → k < wordEndFwdGo rem o →
        isWordBoundaryChar (t.getD k ' ') = false := by
  intro rem
  induction rem with
  | nil =>
    intro o _ k h1 h2
    unfold wordEndFwdGo at h2
    omega
  | cons c rest ih =>
    intro o hrem k h1 h2
    obtain ⟨hc, hrest, _⟩ := drop_cons_getD t o c rest hrem.symm
    unfold wordEndFwdGo at h2
    by_cases hb : isWordBoundaryChar c = true
    · rw [if_pos hb] at h2
      omega
    · rw [if_neg hb] at h2
      by_cases hk : k = o
      · subst hk
        rw [hc]
        simpa using hb
      · exact ih (o + 1) hrest.symm k (by omega) h2

theorem wordEndFwdGo_lands (t : List Char) :
    ∀ (rem : List Char) (o : Nat), rem = t.drop o → o ≤ t.length →
      wordEndFwdGo rem o = t.length ∨
        isWordBoundaryChar (t.getD (wordEndFwdGo rem o) ' ') = true := by
  intro rem
  induction rem with
  | nil =>
    intro o hrem hle
    left
    unfold wordEndFwdGo
    have : t.length ≤ o := by
      by_contra hc
      have : t.drop o ≠ [] := by
        simp [List.drop_eq_nil_iff]
        omega
      exact this hrem.symm
    omega
  | cons c rest ih =>
    intro o hrem _
    obtain ⟨hc, hrest, hlt⟩ := drop_cons_getD t o c rest hrem.symm
    unfold wordEndFwdGo
    by_cases hb : isWordBoundaryChar c = true
    · rw [if_pos hb]
      right
      rw [hc]
      exact hb
    · rw [if_neg hb]
      exact ih (o + 1) hrest.symm (by omega)

/-! ## Endpoint completion lemmas -/

theorem completeWordStart_spec (doc : Doc) (r : MRange) (t : List Char)
    (ht : nodeAt doc r.startPath = some (.text t))
    (hb : r.startOffset ≤ t.length) :
    (completeWordStart doc r).startPath = r.startPath ∧
    (completeWordStart doc r).endPath = r.endPath ∧
    (completeWordStart doc r).endOffset = r.endOffset ∧
    (completeWordStart doc r).startOffset ≤ r.startOffset ∧
    (∀ k, (completeWordStart doc r).startOffset ≤ k → k < r.startOffset →
      isWordBoundaryChar (t.getD k ' ') = false) ∧
    ((completeWordStart doc r).startOffset = 0 ∨
      isWordBoundaryChar
        (t.getD ((completeWordStart doc r).startOffset - 1) ' ') = true ∨
      (completeWordStart doc r).startOffset = r.startOffset) ∧
    (r.endOffset < wordStartBack t r.startOffset →
      (completeWordStart doc r).startOffset = r.startOffset) := by
  have heq : completeWordStart doc r =
      (if (decide (r.startOffset = 0) ||
            isWordBoundaryChar (t.getD (r.startOffset - 1) ' ')) = true then r
       else if wordStartBack t r.startOffset ≤ r.endOffset then
         { r with startOffset := wordStartBack t r.startOffset }
       else r) := by
    simp only [completeWordStart, ht]
    rw [if_neg (by omega : ¬r.startOffset > t.length)]
  rw [heq]
  by_cases h1 : (decide (r.startOffset = 0) ||
      isWordBoundaryChar (t.getD (r.startOffset - 1) ' ')) = true
  · rw [if_pos h1]
    refine ⟨rfl, rfl, rfl, Nat.le_refl _, ?_, Or.inr (Or.inr rfl), fun _ => rfl⟩
    intro k hk1 hk2
    omega
  · rw [if_neg h1]
    by_cases h2 : wordStartBack t r.startOffset ≤ r.endOffset
    · rw [if_pos h2]
      refine ⟨rfl, rfl, rfl, wordStartBack_le t r.startOffset, ?_, ?_, ?_⟩
      · exact wordStartBack_region t r.startOffset
      · rcases wordStartBack_lands t r.startOffset with h | h
        · exact Or.inl h
        · exact Or.inr (Or.inl h)
      · intro hgt
        omega
    · rw [if_neg h2]
      refine ⟨rfl, rfl, rfl, Nat.le_refl _, ?_, Or.inr (Or.inr rfl), fun _ => rfl⟩
      intro k hk1 hk2
      omega

theorem completeWordEnd_spec (doc : Doc) (r : MRange) (t : List Char)
    (ht : nodeAt doc r.endPath = some (.text t))
    (hb : r.endOffset ≤ t.length) :
    (completeWordEnd doc r).startPath = r.startPath ∧
    (completeWordEnd doc r).endPath = r.endPath ∧
    (completeWordEnd doc r).startOffset = r.startOffset ∧
    r.endOffset ≤ (completeWordEnd doc r).endOffset ∧
    (completeWordEnd doc r).endOffset ≤ t.length ∧
    (∀ k, r.endOffset ≤ k → k < (completeWordEnd doc r).endOffset →
      isWordBoundaryChar (t.getD k ' ') = false) ∧
    ((completeWordEnd doc r).endOffset = t.length ∨
      isWordBoundaryChar (t.getD ((completeWordEnd doc r).endOffset) ' ')
        = true ∨
      (completeWordEnd doc r).endOffset = r.endOffset) ∧
    (wordEndFwd t r.endOffset < r.startOffset →
      (completeWordEnd doc r).endOffset = r.endOffset) := by
  have hfwd_le : wordEndFwd t r.endOffset ≤ t.length := by
    unfold wordEndFwd
    have := wordEndFwdGo_le (t.drop r.endOffset) r.endOffset
    simp only [List.length_drop] at this
    omega
  have heq : completeWordEnd doc r =
      (if (decide (r.endOffset ≥ t.length) ||
            isWordBoundaryChar (t.getD r.endOffset ' ')) = true then r
       else if r.startOffset ≤ wordEndFwd t r.endOffset then
         { r with endOffset := wordEndFwd t r.endOffset }
       else r) := by
    simp only [completeWordEnd, ht]
    rw [if_neg (by omega : ¬r.endOffset > t.length)]
  rw [heq]
  by_cases h1 : (decide (r.endOffset ≥ t.length) ||
      isWordBoundaryChar (t.getD r.endOffset ' ')) = true
  · rw [if_pos h1]
    refine ⟨rfl, rfl, rfl, Nat.le_refl _, hb, ?_, Or.inr (Or.inr rfl),
      fun _ => rfl⟩
    intro k hk1 hk2
    omega
  · rw [if_neg h1]
    by_cases h2 : r.startOffset ≤ wordEndFwd t r.endOffset
    · rw [if_pos h2]
      refine ⟨rfl, rfl, rfl, ?_, hfwd_le, ?_, ?_, ?_⟩
      · exact wordEndFwdGo_ge (t.drop r.endOffset) r.endOffset
      · exact wordEndFwdGo_region t (t.drop r.endOffset) r.endOffset rfl
      · rcases wordEndFwdGo_lands t (t.drop r.endOffset) r.endOffset rfl hb
          with h | h
        · exact Or.inl h
        · exact Or.inr (Or.inl h)
      · intro hgt
        exfalso
        unfold wordEndFwd at hgt h2
        omega
    · rw [if_neg h2]
      refine ⟨rfl, rfl, rfl, Nat.le_refl _, hb, ?_, Or.inr (Or.inr rfl),
        fun _ => rfl⟩
      intro k hk1 hk2
      omega

/-! ## C5: word-boundary completion extends to boundaries -/

/-- C5: for a selection with both endpoints in text nodes,
word-boundary completion extends the start backward and the end forward
until a boundary character or the text edge, never including a boundary
character in the extension; an endpoint whose extended offset would pass
the other endpoint's offset is left at its original, unextended offset;
and a selection with ordered offsets never comes out inverted. -/
theorem completion_extends_to_boundaries (doc : Doc) (r : MRange)
    (t1 t2 : List Char)
    (ht1 : nodeAt doc r.startPath = some (.text t1))
    (hb1 : r.startOffset ≤ t1.length)
    (ht2 : nodeAt doc r.endPath = some (.text t2))
    (hb2 : r.endOffset ≤ t2.length) :
    (completeWordBoundaries doc r).startPath = r.startPath ∧
    (completeWordBoundaries doc r).endPath = r.endPath ∧
    (completeWordBoundaries doc r).startOffset ≤ r.startOffset ∧
    r.endOffset ≤ (completeWordBoundaries doc r).endOffset ∧
    (∀ k, (completeWordBoundaries doc r).startOffset ≤ k →
      k < r.startOffset → isWordBoundaryChar (t1.getD k ' ') = false) ∧
    ((completeWordBoundaries doc r).startOffset = 0 ∨
      isWordBoundaryChar
        (t1.getD ((completeWordBoundaries doc r).startOffset - 1) ' ')
        = true ∨
      (completeWordBoundaries doc r).startOffset = r.startOffset) ∧
    (∀ k, r.endOffset ≤ k → k < (completeWordBoundaries doc r).endOffset →
      isWordBoundaryChar (t2.getD k ' ') = false) ∧
    ((completeWordBoundaries doc r).endOffset = t2.length ∨
      isWordBoundaryChar
        (t2.getD ((completeWordBoundaries doc r).endOffset) ' ') = true ∨
      (completeWordBoundaries doc r).endOffset = r.endOffset) ∧
    (r.startOffset ≤ r.endOffset →
      (completeWordBoundaries doc r).startOffset ≤
        (completeWordBoundaries doc r).endOffset) ∧
    (r.endOffset < wordStartBack t1 r.startOffset →
      (completeWordBoundaries doc r).startOffset = r.startOffset) ∧
    (wordEndFwd t2 r.endOffset < (completeWordStart doc r).startOffset →
      (completeWordBoundaries doc r).endOffset = r.endOffset) := by
  have hcb : completeWordBoundaries doc r =
      completeWordEnd doc (completeWordStart doc r) := by
    unfold completeWordBoundaries
    rw [ht1, ht2]
    rfl
  obtain ⟨s1, s2, s3, s4, s5, s6, s7⟩ := completeWordStart_spec doc r t1 ht1 hb1
  have ht2' : nodeAt doc (completeWordStart doc r).endPath =
      some (.text t2) := by rw [s2]; exact ht2
  have hb2' : (completeWordStart doc r).endOffset ≤ t2.length := by
    rw [s3]; exact hb2
  obtain ⟨e1, e2, e3, e4, e5, e6, e7, e8⟩ :=
    completeWordEnd_spec doc (completeWordStart doc r) t2 ht2' hb2'
  rw [hcb]
  rw [s3] at e4 e6 e7 e8
  refine ⟨?_, ?_, ?_, e4, ?_, ?_, e6, e7, ?_, ?_, ?_⟩
  · rw [e1, s1]
  · rw [e2, s2]
  · rw [e3]; exact s4
  · intro k hk1 hk2
    rw [e3] at hk1
    exact s5 k hk1 hk2
  · rw [e3]; exact s6
  · intro hord
    rw [e3]
    calc (completeWordStart doc r).startOffset ≤ r.startOffset := s4
      _ ≤ r.endOffset := hord
      _ ≤ (completeWordEnd doc (completeWordStart doc r)).endOffset := e4
  · intro hgt
    rw [e3]
    exact s7 hgt
  · intro hgt
    exact e8 hgt

/-- Witness for C5 at the spec's own example: `"uick brow"` inside
`"The quick brown fox"`. -/
theorem completion_extends_to_boundaries_witness :
    nodeAt [DomNode.text (strL "The quick brown fox")]
      (MRange.mk [0] 5 [0] 14).startPath =
      some (.text (strL "The quick brown fox")) ∧
    (completeWordBoundaries [DomNode.text (strL "The quick brown fox")]
        ⟨[0], 5, [0], 14⟩).startPath = [0] ∧
    (completeWordBoundaries [DomNode.text (strL "The quick brown fox")]
        ⟨[0], 5, [0], 14⟩).startOffset ≤ 5 :=
  ⟨rfl,
    (completion_extends_to_boundaries [DomNode.text (strL "The quick brown fox")]
      ⟨[0], 5, [0], 14⟩ (strL "The quick brown fox")
      (strL "The quick brown fox") rfl (by decide) rfl (by decide)).1,
    (completion_extends_to_boundaries [DomNode.text (strL "The quick brown fox")]
      ⟨[0], 5, [0], 14⟩ (strL "The quick brown fox")
      (strL "The quick brown fox") rfl (by decide) rfl (by decide)).2.2.1⟩

/-! ## C6: word-boundary completion is a fixed point -/

/-- C6: a selection whose start already sits at offset `0` or after a
boundary character, and whose end sits at the text node's length or
before a boundary character, is returned unchanged by
`completeWordSelection` — in particular its text is identical. -/
theorem completion_fixed_point (doc : Doc) (r : MRange) (t1 t2 : List Char)
    (ht1 : nodeAt doc r.startPath = some (.text t1))
    (ht2 : nodeAt doc r.endPath = some (.text t2))
    (ha1 : r.startOffset = 0 ∨
      isWordBoundaryChar (t1.getD (r.startOffset - 1) ' ') = true)
    (ha2 : t2.length ≤ r.endOffset ∨
      isWordBoundaryChar (t2.getD r.endOffset ' ') = true) :
    completeWordSelection doc r = r := by
  have hs : completeWordStart doc r = r := by
    simp only [completeWordStart, ht1]
    by_cases hgt : r.startOffset > t1.length
    · rw [if_pos hgt]
    · rw [if_neg hgt]
      have hcond : (decide (r.startOffset = 0) ||
          isWordBoundaryChar (t1.getD (r.startOffset - 1) ' ')) = true := by
        rcases ha1 with h | h
        · simp [h]
        · rw [List.getD_eq_getElem?_getD] at h
          simp [h]
      rw [if_pos hcond]
  have he : completeWordEnd doc r = r := by
    simp only [completeWordEnd, ht2]
    by_cases hgt : r.endOffset > t2.length
    · rw [if_pos hgt]
    · rw [if_neg hgt]
      have hcond : (decide (r.endOffset ≥ t2.length) ||
          isWordBoundaryChar (t2.getD r.endOffset ' ')) = true := by
        rcases ha2 with h | h
        · simp [h, ge_iff_le]
        · rw [List.getD_eq_getElem?_getD] at h
          simp [h]
      rw [if_pos hcond]
  have hcb : completeWordBoundaries doc r = r := by
    unfold completeWordBoundaries
    rw [ht1, ht2]
    simp [hs, he]
  unfold completeWordSelection
  rw [hcb]
  by_cases h1 : (rangeCollapsed r || (trimChars (rangeTextD doc r)).isEmpty)
      = true
  · rw [if_pos h1]
  · rw [if_neg h1]
    have hor : (rangeCollapsed r || (trimChars (rangeTextD doc r)).isEmpty)
        = false := Bool.eq_false_iff.mpr h1
    have hcol : rangeCollapsed r = false := (Bool.or_eq_false_iff.mp hor).1
    have hemp : (trimChars (rangeTextD doc r)).isEmpty = false :=
      (Bool.or_eq_false_iff.mp hor).2
    rw [if_neg (by simp [hcol])]
    rw [if_neg (by simp [hemp])]
    rw [if_neg (by simp)]

/-- Witness for C6: `"quick brown"` (offsets 4–15) inside
`"The quick brown fox"` is boundary-aligned and is returned unchanged. -/
theorem completion_fixed_point_witness :
    ((4 : Nat) = 0 ∨
      isWordBoundaryChar ((strL "The quick brown fox").getD (4 - 1) ' ')
        = true) ∧
    completeWordSelection [DomNode.text (strL "The quick brown fox")]
      ⟨[0], 4, [0], 15⟩ = ⟨[0], 4, [0], 15⟩ :=
  ⟨Or.inr (by decide),
    completion_fixed_point [DomNode.text (strL "The quick brown fox")]
      ⟨[0], 4, [0], 15⟩ (strL "The quick brown fox")
      (strL "The quick brown fox") rfl rfl (Or.inr (by decide))
      (Or.inr (by decide))⟩

/-! ## Serializer lemmas -/

@[simp]
theorem deepTextsList_nil : deepTextsList [] = [] := rfl

@[simp]
theorem deepTextsList_cons (d : DomNode) (ds : List DomNode) :
    deepTextsList (d :: ds) = deepTextsNode d ++ deepTextsList ds := by
  rw [deepTextsList]

theorem walkCount_spec (i : Nat) (ds : List DomNode) :
    walkCount ds i =
      ((deepTextsList (ds.take i)).length,
        ((deepTextsList (ds.take i)).map List.length).sum) := by
  induction i generalizing ds with
  | zero => simp [walkCount]
  | succ i ih =>
    cases ds with
    | nil => simp [walkCount]
    | cons d ds =>
      simp only [walkCount, ih, List.take_succ_cons, deepTextsList_cons,
        List.length_append, List.map_append, List.sum_append]

theorem pathSplit_concat (q : List Nat) (i : Nat) :
    pathSplit (q ++ [i]) = some (q, i) := by
  unfold pathSplit
  rw [List.getLast?_concat, List.dropLast_concat]

theorem childrenAt_cons (ds : List DomNode) (j : Nat) (q' : List Nat) :
    childrenAt ds (j :: q') =
      (match ds[j]? with
       | some (.elem _ _ _ cs) => childrenAt cs q'
       | _ => none) := by
  cases q' with
  | nil =>
    cases hds : ds[j]? with
    | none => simp [childrenAt, nodeAt, hds]
    | some n => cases n <;> simp [childrenAt, nodeAt, hds]
  | cons a q'' =>
    cases hds : ds[j]? with
    | none => simp [childrenAt, nodeAt, hds]
    | some n => cases n <;> simp [childrenAt, nodeAt, hds]

theorem specChain_snoc (q : List Nat) (i : Nat) (ds : List DomNode) :
    specChain ds (q ++ [i]) =
      (match childrenAt ds q with
       | some sibs =>
         match sibs[i]? with
         | some (.elem tag _ _ _) =>
           (specChain ds q).map
             (· ++ [(tag, 1 + countSameTag (sibs.take i) tag)])
         | _ => none
       | none => none) := by
  induction q generalizing ds with
  | nil =>
    show specChain ds [i] = _
    simp only [childrenAt]
    cases hds : ds[i]? with
    | none => simp [specChain, hds]
    | some n => cases n <;> simp [specChain, hds]
  | cons j q' ih =>
    show specChain ds (j :: (q' ++ [i])) = _
    rw [childrenAt_cons]
    cases hds : ds[j]? with
    | none => simp [specChain, hds]
    | some n =>
      cases n with
      | text s => simp [specChain, hds]
      | elem tg idA hl cs =>
        simp only [specChain, hds, ih cs]
        cases hca : childrenAt cs q' with
        | none => simp [hca]
        | some sibs =>
          cases hsi : sibs[i]? with
          | none => simp [hca, hsi]
          | some m =>
            cases m with
            | text s => simp [hca, hsi]
            | elem tg2 idA2 hl2 cs2 =>
              cases hsc : specChain cs q' with
              | none => simp [hca, hsi, hsc]
              | some ch => simp [hca, hsi, hsc]

theorem buildChainRev_eq_specChain (doc : Doc) (p : List Nat) :
    buildChainRev doc p.reverse = specChain doc p := by
  induction p using List.reverseRecOn with
  | nil => rfl
  | append_singleton q i ih =>
    rw [specChain_snoc]
    have hr : (q ++ [i]).reverse = i :: q.reverse := by
      simp
    rw [hr]
    show (do
      let sibs ← childrenAt doc q.reverse.reverse
      match sibs[i]? with
      | some (.elem tag _ _ _) =>
        let rest ← buildChainRev doc q.reverse
        pure (rest ++ [(tag, 1 + countSameTag (sibs.take i) tag)])
      | _ => none) = _
    rw [List.reverse_reverse]
    cases hca : childrenAt doc q with
    | none => rfl
    | some sibs =>
      cases hsi : sibs[i]? with
      | none => simp [hsi]
      | some m =>
        cases m with
        | text s => simp [hsi]
        | elem tg idA hl cs =>
          simp only [hsi, Option.some_bind, ih]
          cases hsc : specChain doc q with
          | none => simp [hsi, hsc]
          | some ch => simp [hsi, hsc]

/-! ## C4: flattened offsets and structural addresses -/

/-- C4: for a range endpoint in a text node (the direct child `i` of its
parent element), `getContainerInfo` stores the sum of the lengths of all
text-node descendants of the parent that precede the endpoint's node in
document order, plus the endpoint's local offset (and the count of those
preceding text nodes as `textIndex`); and `getSimpleXPath` produces the
identifier-based short-circuit when the element carries an id, else the
root-relative chain of `(tagName, siblingIndex)` pairs where each index
is `1 +` the number of same-tag elements among the earlier siblings. -/
theorem serializer_offset_and_address :
    (∀ (doc : Doc) (q : List Nat) (i off : Nat) (t : List Char)
        (sibs : List DomNode) (xp : XPathAddr),
      nodeAt doc (q ++ [i]) = some (.text t) →
      childrenAt doc q = some sibs →
      getSimpleXPath doc q = some xp →
      getContainerInfo doc (q ++ [i]) off =
        some ⟨xp, ((deepTextsList (sibs.take i)).map List.length).sum + off,
          (deepTextsList (sibs.take i)).length⟩) ∧
    (∀ (doc : Doc) (p : List Nat) (tag idAttr : String)
        (hl : Option String) (cs : List DomNode),
      p ≠ [] → nodeAt doc p = some (.elem tag idAttr hl cs) →
      (idAttr ≠ "" → getSimpleXPath doc p = some (.byId idAttr)) ∧
      (idAttr = "" → getSimpleXPath doc p = (specChain doc p).map .byPath)) := by
  constructor
  · intro doc q i off t sibs xp hnode hch hxp
    simp only [getContainerInfo, hnode, pathSplit_concat, hch, hxp,
      Option.some_bind]
    simp [walkCount_spec]
  · intro doc p tag idAttr hl cs hp hnode
    constructor
    · intro hid
      cases p with
      | nil => exact absurd rfl hp
      | cons x xs =>
        simp only [getSimpleXPath, hnode]
        rw [if_pos hid]
    · intro hid
      cases p with
      | nil => exact absurd rfl hp
      | cons x xs =>
        simp only [getSimpleXPath, hnode]
        rw [if_neg (by simp [hid])]
        rw [buildChainRev_eq_specChain]

/-- Witness for C4: a text endpoint after a nested `<b>` element; the
flattened offset is `2 + 2` and the address is `//div[1]`. -/
theorem serializer_offset_and_address_witness :
    nodeAt [DomNode.elem "div" "" none [DomNode.elem "b" "" none
        [DomNode.text (strL "ab")], DomNode.text (strL "cdef")]]
      ([0] ++ [1]) = some (.text (strL "cdef")) ∧
    getContainerInfo [DomNode.elem "div" "" none [DomNode.elem "b" "" none
        [DomNode.text (strL "ab")], DomNode.text (strL "cdef")]]
      ([0] ++ [1]) 2 =
      some ⟨.byPath [("div", 1)],
        ((deepTextsList (([DomNode.elem "b" "" none
            [DomNode.text (strL "ab")],
          DomNode.text (strL "cdef")] : List DomNode).take 1)).map
            List.length).sum + 2,
        (deepTextsList (([DomNode.elem "b" "" none
            [DomNode.text (strL "ab")],
          DomNode.text (strL "cdef")] : List DomNode).take 1)).length⟩ :=
  ⟨rfl,
    serializer_offset_and_address.1
      [DomNode.elem "div" "" none [DomNode.elem "b" "" none
        [DomNode.text (strL "ab")], DomNode.text (strL "cdef")]]
      [0] 1 2 (strL "cdef")
      [DomNode.elem "b" "" none [DomNode.text (strL "ab")],
        DomNode.text (strL "cdef")]
      (.byPath [("div", 1)]) rfl rfl rfl⟩

/-! ## Text-content preservation of unwrap and normalize -/

@[simp]
theorem textContentNode_text (s : List Char) :
    textContentNode (.text s) = s := rfl

@[simp]
theorem textContentNode_elem (tg idA : String) (hl : Option String)
    (cs : List DomNode) :
    textContentNode (.elem tg idA hl cs) = textContentList cs := by
  rw [textContentNode]

mutual

theorem textContent_unwrapNode (hid : String) :
    (d : DomNode) → textContentList (unwrapNode hid d) = textContentNode d
  | .text s => by simp [unwrapNode]
  | .elem tg idA hl cs => by
    have hcs := textContent_unwrapList hid cs
    simp only [unwrapNode]
    split
    · simpa using hcs
    · simpa using hcs

theorem textContent_unwrapList (hid : String) :
    (ds : List DomNode) →
      textContentList (unwrapList hid ds) = textContentList ds
  | [] => rfl
  | d :: ds => by
    simp only [unwrapList, textContentList_append, textContentList_cons,
      textContent_unwrapNode hid d, textContent_unwrapList hid ds]

end

mutual

theorem textContent_normalizeNode :
    (d : DomNode) → textContentNode (normalizeNode d) = textContentNode d
  | .text a => rfl
  | .elem tg idA hl cs => by
    simp only [normalizeNode, textContentNode_elem]
    exact textContent_normalizeList cs

theorem textContent_normalizeList :
    (ds : List DomNode) →
      textContentList (normalizeList ds) = textContentList ds
  | [] => rfl
  | c :: rest => by
    have hc := textContent_normalizeNode c
    have hr := textContent_normalizeList rest
    simp only [normalizeList]
    cases hnc : normalizeNode c with
    | text a =>
      rw [hnc] at hc
      simp only [textContentNode_text] at hc
      cases hnr : normalizeList rest with
      | nil =>
        rw [hnr] at hr
        simp only [textContentList_nil] at hr
        dsimp only
        by_cases ha : a.isEmpty = true
        · rw [if_pos ha]
          have ha' : a = [] := by simpa using ha
          simp [← hc, ← hr, ha']
        · rw [if_neg ha]
          simp [← hc, ← hr]
      | cons hd tl =>
        rw [hnr] at hr
        cases hd with
        | text b =>
          dsimp only
          by_cases hab : (a ++ b).isEmpty = true
          · rw [if_pos hab]
            have hab' : a = [] ∧ b = [] := by simpa using hab
            simp only [textContentList_cons, textContentNode_text] at hr
            simp [← hc, ← hr, hab'.1, hab'.2]
          · rw [if_neg hab]
            simp only [textContentList_cons, textContentNode_text] at hr ⊢
            rw [← hc, ← hr]
            simp
        | elem tg2 idA2 hl2 cs2 =>
          dsimp only
          by_cases ha : a.isEmpty = true
          · rw [if_pos ha]
            have hcc : textContentNode c = [] := by
              rw [← hc]
              simpa using ha
            simp [hcc, hr]
          · rw [if_neg ha]
            simp [← hc, hr]
    | elem tg2 idA2 hl2 cs2 =>
      rw [hnc] at hc
      dsimp only
      simp [← hc, hr]

end

/-! ## List-surgery lemmas for the renderer -/

theorem set_decomp {α : Type} (ds : List α) (i : Nat) (x : α)
    (h : i < ds.length) :
    ds.set i x = ds.take i ++ x :: ds.drop (i + 1) := by
  induction ds generalizing i with
  | nil => simp at h
  | cons d rest ih =>
    cases i with
    | zero => simp
    | succ i =>
      simp only [List.set_cons_succ, List.take_succ_cons, List.drop_succ_cons,
        List.cons_append, List.cons.injEq, true_and]
      exact ih i (by simpa using h)

theorem append_cons_take {α : Type} (l1 : List α) (x : α) (l2 : List α) :
    (l1 ++ x :: l2).take l1.length = l1 := by
  simp

theorem append_cons_take_succ {α : Type} (l1 : List α) (x : α) (l2 : List α) :
    (l1 ++ x :: l2).take (l1.length + 1) = l1 ++ [x] := by
  have : l1 ++ x :: l2 = (l1 ++ [x]) ++ l2 := by simp
  rw [this]
  have hlen : l1.length + 1 = (l1 ++ [x]).length := by simp
  rw [hlen, List.take_left]

theorem append_cons_drop {α : Type} (l1 : List α) (x : α) (l2 : List α) :
    (l1 ++ x :: l2).drop (l1.length + 1) = l2 := by
  have : l1 ++ x :: l2 = (l1 ++ [x]) ++ l2 := by simp
  rw [this]
  have hlen : l1.length + 1 = (l1 ++ [x]).length := by simp
  rw [hlen, List.drop_left]

theorem take_mid_drop (t : List Char) (s e : Nat) (hse : s ≤ e) :
    t.take s ++ ((t.take e).drop s ++ t.drop e) = t := by
  have h1 : (t.take e).take s = t.take s := by
    rw [List.take_take, Nat.min_eq_left hse]
  calc t.take s ++ ((t.take e).drop s ++ t.drop e)
      = ((t.take e).take s ++ (t.take e).drop s) ++ t.drop e := by
        rw [h1, List.append_assoc]
    _ = t.take e ++ t.drop e := by rw [List.take_append_drop]
    _ = t := List.take_append_drop e t

theorem take_drop_append (t : List Char) (s : Nat) (R : List Char) :
    t.take s ++ (t.drop s ++ R) = t ++ R := by
  rw [← List.append_assoc, List.take_append_drop]

theorem take_mid_drop_append (t : List Char) (s e : Nat) (hse : s ≤ e)
    (R : List Char) :
    t.take s ++ ((t.take e).drop s ++ (t.drop e ++ R)) = t ++ R := by
  conv_rhs => rw [← take_mid_drop t s e hse]
  simp [List.append_assoc]

theorem list_decomp_two {α : Type} (ds : List α) (i j : Nat) (x y : α)
    (hi : ds[i]? = some x) (hj : ds[j]? = some y) (hij : i < j) :
    ds = ds.take i ++ x ::
      ((ds.drop (i + 1)).take (j - (i + 1)) ++ y :: ds.drop (j + 1)) := by
  obtain ⟨h1, hlen1⟩ := list_decomp_at ds i x hi
  have hj' : (ds.drop (i + 1))[j - (i + 1)]? = some y := by
    rw [List.getElem?_drop]
    rw [show i + 1 + (j - (i + 1)) = j by omega]
    exact hj
  obtain ⟨h2, hlen2⟩ := list_decomp_at (ds.drop (i + 1)) (j - (i + 1)) y hj'
  have h3 : (ds.drop (i + 1)).drop ((j - (i + 1)) + 1) = ds.drop (j + 1) := by
    rw [List.drop_drop]
    congr 1
    omega
  rw [← h3, ← h2, ← h1]

theorem wrapSameLocal_tcl (i s e : Nat) (hid : String) (ds : List DomNode)
    (a : DomNode) (ds' : List DomNode)
    (h : wrapSameLocal i s e hid ds = some (a, ds')) :
    textContentList ds' = textContentList ds := by
  unfold wrapSameLocal at h
  cases hdi : ds[i]? with
  | none => rw [hdi] at h; exact Option.noConfusion h
  | some n =>
    rw [hdi] at h
    cases n with
    | elem _ _ _ _ => exact Option.noConfusion h
    | text t =>
      dsimp only at h
      by_cases hc : s ≤ e ∧ e ≤ t.length
      · rw [if_pos hc] at h
        have h2 := Option.some.inj h
        rw [Prod.mk.injEq] at h2
        obtain ⟨_, hd⟩ := h2
        subst hd
        conv_rhs => rw [(list_decomp_at ds i _ hdi).1]
        simp only [textContentList_append, textContentList_cons,
          textContentNode_text, textContentNode_elem, textContentList_nil,
          List.append_assoc, List.append_nil]
        rw [take_mid_drop_append t s e hc.1]
      · rw [if_neg hc] at h
        exact Option.noConfusion h

theorem wrapSiblingsLocal_tcl (i s j e : Nat) (hid : String)
    (ds : List DomNode) (a : DomNode) (ds' : List DomNode)
    (h : wrapSiblingsLocal i s j e hid ds = some (a, ds')) :
    textContentList ds' = textContentList ds := by
  unfold wrapSiblingsLocal at h
  cases hdi : ds[i]? with
  | none => rw [hdi] at h; exact Option.noConfusion h
  | some n =>
    cases hdj : ds[j]? with
    | none => rw [hdi, hdj] at h; cases n <;> exact Option.noConfusion h
    | some m =>
      rw [hdi, hdj] at h
      cases n with
      | elem _ _ _ _ => exact Option.noConfusion h
      | text ti =>
        cases m with
        | elem _ _ _ _ => exact Option.noConfusion h
        | text tj =>
          dsimp only at h
          by_cases hc : i < j ∧ s ≤ ti.length ∧ e ≤ tj.length
          · rw [if_pos hc] at h
            have h2 := Option.some.inj h
            rw [Prod.mk.injEq] at h2
            obtain ⟨_, hd⟩ := h2
            subst hd
            conv_rhs => rw [list_decomp_two ds i j _ _ hdi hdj hc.1]
            simp only [textContentList_append, textContentList_cons,
              textContentNode_text, textContentNode_elem, textContentList_nil,
              List.append_assoc, List.append_nil]
            rw [take_drop_append ti s, take_drop_append tj e]
          · rw [if_neg hc] at h
            exact Option.noConfusion h

theorem modifyChildren_tcl {α : Type}
    (f : List DomNode → Option (α × List DomNode))
    (hf : ∀ ds a ds', f ds = some (a, ds') →
      textContentList ds' = textContentList ds) :
    ∀ (q : List Nat) (doc : List DomNode) (a : α) (d' : List DomNode),
      modifyChildren f doc q = some (a, d') →
      textContentList d' = textContentList doc := by
  intro q
  induction q with
  | nil =>
    intro doc a d' h
    exact hf doc a d' (by simpa [modifyChildren] using h)
  | cons i rest ih =>
    intro doc a d' h
    simp only [modifyChildren] at h
    cases hdi : doc[i]? with
    | none => rw [hdi] at h; exact Option.noConfusion h
    | some n =>
      rw [hdi] at h
      cases n with
      | text s => exact Option.noConfusion h
      | elem tg idA hl cs =>
        dsimp only at h
        cases hm : modifyChildren f cs rest with
        | none => rw [hm] at h; exact Option.noConfusion h
        | some r =>
          rw [hm] at h
          obtain ⟨a', cs'⟩ := r
          simp only [Option.map_some'] at h
          have h2 := Option.some.inj h
          rw [Prod.mk.injEq] at h2
          obtain ⟨rfl, hd⟩ := h2
          subst hd
          have hlt : i < doc.length := by
            by_contra hcon
            rw [List.getElem?_eq_none (Nat.le_of_not_lt hcon)] at hdi
            exact Option.noConfusion hdi
          rw [set_decomp doc i _ hlt]
          conv_rhs => rw [(list_decomp_at doc i _ hdi).1]
          simp only [textContentList_append, textContentList_cons,
            textContentNode_elem]
          rw [ih cs _ cs' hm]

theorem modifyChildren_pair_tcl {α β : Type}
    (f : List DomNode → Option (α × List DomNode))
    (g : α → List DomNode → Option (β × List DomNode))
    (hfg : ∀ ds a ds1 b ds2, f ds = some (a, ds1) → g a ds1 = some (b, ds2) →
      textContentList ds2 = textContentList ds) :
    ∀ (q : List Nat) (doc : List DomNode) (a : α) (d1 : List DomNode)
      (b : β) (d2 : List DomNode),
      modifyChildren f doc q = some (a, d1) →
      modifyChildren (g a) d1 q = some (b, d2) →
      textContentList d2 = textContentList doc := by
  intro q
  induction q with
  | nil =>
    intro doc a d1 b d2 h1 h2
    exact hfg doc a d1 b d2 (by simpa [modifyChildren] using h1)
      (by simpa [modifyChildren] using h2)
  | cons i rest ih =>
    intro doc a d1 b d2 h1 h2
    simp only [modifyChildren] at h1 h2
    cases hdi : doc[i]? with
    | none => rw [hdi] at h1; exact Option.noConfusion h1
    | some n =>
      rw [hdi] at h1
      cases n with
      | text s => exact Option.noConfusion h1
      | elem tg idA hl cs =>
        dsimp only at h1
        cases hm1 : modifyChildren f cs rest with
        | none => rw [hm1] at h1; exact Option.noConfusion h1
        | some r1 =>
          rw [hm1] at h1
          obtain ⟨a1, cs1⟩ := r1
          simp only [Option.map_some'] at h1
          have h1' := Option.some.inj h1
          rw [Prod.mk.injEq] at h1'
          obtain ⟨ha1, hd1⟩ := h1'
          rw [ha1] at hm1
          have hlt : i < doc.length := by
            by_contra hcon
            rw [List.getElem?_eq_none (Nat.le_of_not_lt hcon)] at hdi
            exact Option.noConfusion hdi
          rw [← hd1] at h2
          rw [List.getElem?_set_eq hlt] at h2
          dsimp only at h2
          cases hm2 : modifyChildren (g a) cs1 rest with
          | none => rw [hm2] at h2; exact Option.noConfusion h2
          | some r2 =>
            rw [hm2] at h2
            obtain ⟨b2, cs2⟩ := r2
            simp only [Option.map_some'] at h2
            have h2' := Option.some.inj h2
            rw [Prod.mk.injEq] at h2'
            obtain ⟨hb2, hd2⟩ := h2'
            rw [List.set_set] at hd2
            subst hd2
            rw [set_decomp doc i _ hlt]
            conv_rhs => rw [(list_decomp_at doc i _ hdi).1]
            simp only [textContentList_append, textContentList_cons,
              textContentNode_elem]
            rw [ih cs a cs1 b2 cs2 hm1 hm2]

theorem take_set_same {α : Type} (ds : List α) (i : Nat) (x : α) :
    (ds.set i x).take i = ds.take i := by
  induction ds generalizing i with
  | nil => simp
  | cons d rest ih =>
    cases i with
    | zero => simp
    | succ n =>
      simp only [List.set_cons_succ, List.take_succ_cons]
      rw [ih]

theorem drop_succ_set_same {α : Type} (ds : List α) (i : Nat) (x : α) :
    (ds.set i x).drop (i + 1) = ds.drop (i + 1) := by
  induction ds generalizing i with
  | nil => simp
  | cons d rest ih =>
    cases i with
    | zero => simp
    | succ n =>
      simp only [List.set_cons_succ, List.drop_succ_cons]
      exact ih n

/-! ## Extract-then-insert composites preserve text content -/

theorem extract_insert_same_tcl (i s e : Nat) (hid : String)
    (ds frag ds1 : List DomNode) (u : Unit) (ds2 : List DomNode)
    (h1 : extractSameLocal i s e ds = some (frag, ds1))
    (h2 : insertLocalText i s (DomNode.elem "span" "" (some hid) frag) ds1 =
      some (u, ds2)) :
    textContentList ds2 = textContentList ds := by
  unfold extractSameLocal at h1
  cases hdi : ds[i]? with
  | none => rw [hdi] at h1; exact Option.noConfusion h1
  | some n =>
    rw [hdi] at h1
    cases n with
    | elem _ _ _ _ => exact Option.noConfusion h1
    | text t =>
      dsimp only at h1
      by_cases hc : s ≤ e ∧ e ≤ t.length
      · rw [if_pos hc] at h1
        have h1' := Option.some.inj h1
        rw [Prod.mk.injEq] at h1'
        obtain ⟨hfr, hd1⟩ := h1'
        subst hfr
        have hlt : i < ds.length := by
          by_contra hcon
          rw [List.getElem?_eq_none (Nat.le_of_not_lt hcon)] at hdi
          exact Option.noConfusion hdi
        unfold insertLocalText at h2
        rw [← hd1, List.getElem?_set_eq hlt] at h2
        dsimp only at h2
        have hslen : s ≤ (t.take s ++ t.drop e).length := by
          simp only [List.length_append, List.length_take]
          omega
        rw [if_pos hslen] at h2
        have h2' := Option.some.inj h2
        rw [Prod.mk.injEq] at h2'
        obtain ⟨_, hd2⟩ := h2'
        subst hd2
        have htk : (t.take s ++ t.drop e).take s = t.take s := by
          rw [List.take_append_of_le_length]
          · rw [List.take_take, Nat.min_self]
          · simp only [List.length_take]
            omega
        have hdr : (t.take s ++ t.drop e).drop s = t.drop e := by
          rw [List.drop_append_of_le_length]
          · rw [List.drop_eq_nil_iff.mpr, List.nil_append]
            simp only [List.length_take]
            omega
          · simp only [List.length_take]
            omega
        rw [htk, hdr, take_set_same, drop_succ_set_same]
        conv_rhs => rw [(list_decomp_at ds i _ hdi).1]
        simp only [textContentList_append, textContentList_cons,
          textContentNode_text, textContentNode_elem, textContentList_nil,
          List.append_assoc, List.append_nil]
        rw [take_mid_drop_append t s e hc.1]
      · rw [if_neg hc] at h1
        exact Option.noConfusion h1

theorem extract_insert_siblings_tcl (i s j e : Nat) (hid : String)
    (ds frag ds1 : List DomNode) (u : Unit) (ds2 : List DomNode)
    (h1 : extractSiblingsLocal i s j e ds = some (frag, ds1))
    (h2 : insertLocalChild (i + 1) (DomNode.elem "span" "" (some hid) frag)
      ds1 = some (u, ds2)) :
    textContentList ds2 = textContentList ds := by
  unfold extractSiblingsLocal at h1
  cases hdi : ds[i]? with
  | none => rw [hdi] at h1; exact Option.noConfusion h1
  | some n =>
    cases hdj : ds[j]? with
    | none => rw [hdi, hdj] at h1; cases n <;> exact Option.noConfusion h1
    | some m =>
      rw [hdi, hdj] at h1
      cases n with
      | elem _ _ _ _ => exact Option.noConfusion h1
      | text ti =>
        cases m with
        | elem _ _ _ _ => exact Option.noConfusion h1
        | text tj =>
          dsimp only at h1
          by_cases hc : i < j ∧ s ≤ ti.length ∧ e ≤ tj.length
          · rw [if_pos hc] at h1
            have h1' := Option.some.inj h1
            rw [Prod.mk.injEq] at h1'
            obtain ⟨hfr, hd1⟩ := h1'
            subst hfr
            unfold insertLocalChild at h2
            have hlen : (ds.take i).length = i := (list_decomp_at ds i _ hdi).2
            have hle : i + 1 ≤ ds1.length := by
              rw [← hd1]
              simp only [List.length_append, List.length_cons, hlen]
              omega
            rw [if_pos hle] at h2
            have h2' := Option.some.inj h2
            rw [Prod.mk.injEq] at h2'
            obtain ⟨_, hd2⟩ := h2'
            subst hd2
            rw [← hd1]
            simp only [List.append_assoc, List.cons_append, List.nil_append]
            rw [show i + 1 = (ds.take i).length + 1 from by rw [hlen],
              append_cons_take_succ, append_cons_drop]
            conv_rhs => rw [list_decomp_two ds i j _ _ hdi hdj hc.1]
            simp only [textContentList_append, textContentList_cons,
              textContentNode_text, textContentNode_elem, textContentList_nil,
              List.append_assoc, List.append_nil]
            rw [take_drop_append ti s, take_drop_append tj e, hlen]
          · rw [if_neg hc] at h1
            exact Option.noConfusion h1

theorem extract_insert_nested_tcl (i k s j e : Nat) (hid : String)
    (ds frag ds1 : List DomNode) (u : Unit) (ds2 : List DomNode)
    (h1 : extractNestedLocal i k s j e ds = some (frag, ds1))
    (h2 : insertLocalChild (i + 1) (DomNode.elem "span" "" (some hid) frag)
      ds1 = some (u, ds2)) :
    textContentList ds2 = textContentList ds := by
  unfold extractNestedLocal at h1
  cases hdi : ds[i]? with
  | none => rw [hdi] at h1; exact Option.noConfusion h1
  | some n =>
    cases hdj : ds[j]? with
    | none => rw [hdi, hdj] at h1; cases n <;> exact Option.noConfusion h1
    | some m =>
      rw [hdi, hdj] at h1
      cases n with
      | text _ => exact Option.noConfusion h1
      | elem tg idA hl cs =>
        cases m with
        | elem _ _ _ _ => exact Option.noConfusion h1
        | text tj =>
          dsimp only at h1
          cases hck : cs[k]? with
          | none => rw [hck] at h1; exact Option.noConfusion h1
          | some ck =>
            rw [hck] at h1
            cases ck with
            | elem _ _ _ _ => exact Option.noConfusion h1
            | text tk =>
              dsimp only at h1
              by_cases hc : i < j ∧ s ≤ tk.length ∧ e ≤ tj.length
              · rw [if_pos hc] at h1
                have h1' := Option.some.inj h1
                rw [Prod.mk.injEq] at h1'
                obtain ⟨hfr, hd1⟩ := h1'
                subst hfr
                unfold insertLocalChild at h2
                have hlen : (ds.take i).length = i :=
                  (list_decomp_at ds i _ hdi).2
                have hle : i + 1 ≤ ds1.length := by
                  rw [← hd1]
                  simp only [List.length_append, List.length_cons, hlen]
                  omega
                rw [if_pos hle] at h2
                have h2' := Option.some.inj h2
                rw [Prod.mk.injEq] at h2'
                obtain ⟨_, hd2⟩ := h2'
                subst hd2
                rw [← hd1]
                simp only [List.append_assoc, List.cons_append,
                  List.nil_append]
                rw [show i + 1 = (ds.take i).length + 1 from by rw [hlen],
                  append_cons_take_succ, append_cons_drop]
                conv_rhs => rw [list_decomp_two ds i j _ _ hdi hdj hc.1]
                conv_rhs => rw [(list_decomp_at cs k _ hck).1]
                simp only [textContentList_append, textContentList_cons,
                  textContentNode_text, textContentNode_elem,
                  textContentList_nil, List.append_assoc, List.append_nil]
                rw [take_drop_append tk s, take_drop_append tj e, hlen]
              · rw [if_neg hc] at h1
                exact Option.noConfusion h1

theorem surroundContents_ok_tcl (doc : Doc) (r : MRange) (hid : String)
    (sp : DomNode) (doc' : Doc)
    (h : surroundContents doc r hid = .ok (sp, doc')) :
    textContentList doc' = textContentList doc := by
  unfold surroundContents at h
  cases hcl : classifyRange r with
  | sameText q i s e =>
    rw [hcl] at h
    dsimp only at h
    cases hm : modifyChildren (wrapSameLocal i s e hid) doc q with
    | none => rw [hm] at h; exact Except.noConfusion h
    | some res =>
      rw [hm] at h
      obtain ⟨sp', d⟩ := res
      have h2 := Except.ok.inj h
      rw [Prod.mk.injEq] at h2
      obtain ⟨_, hd⟩ := h2
      subst hd
      exact modifyChildren_tcl _ (wrapSameLocal_tcl i s e hid) q doc sp' d hm
  | siblings q i s j e =>
    rw [hcl] at h
    dsimp only at h
    cases hm : modifyChildren (wrapSiblingsLocal i s j e hid) doc q with
    | none => rw [hm] at h; exact Except.noConfusion h
    | some res =>
      rw [hm] at h
      obtain ⟨sp', d⟩ := res
      have h2 := Except.ok.inj h
      rw [Prod.mk.injEq] at h2
      obtain ⟨_, hd⟩ := h2
      subst hd
      exact modifyChildren_tcl _ (wrapSiblingsLocal_tcl i s j e hid) q doc
        sp' d hm
  | nestedStart q i k s j e => rw [hcl] at h; exact Except.noConfusion h
  | other => rw [hcl] at h; exact Except.noConfusion h

theorem extract_insert_tcl (doc : Doc) (r : MRange) (hid : String)
    (frag : List DomNode) (doc' : Doc) (locus : InsLocus) (doc'' : Doc)
    (h1 : extractContents doc r = .ok (frag, doc', locus))
    (h2 : insertNodeAt doc' locus (DomNode.elem "span" "" (some hid) frag) =
      some doc'') :
    textContentList doc'' = textContentList doc := by
  unfold extractContents at h1
  cases hcl : classifyRange r with
  | sameText q i s e =>
    rw [hcl] at h1
    dsimp only at h1
    cases hm : modifyChildren (extractSameLocal i s e) doc q with
    | none => rw [hm] at h1; exact Except.noConfusion h1
    | some res =>
      rw [hm] at h1
      obtain ⟨fr, d1⟩ := res
      have h1' := Except.ok.inj h1
      rw [Prod.mk.injEq] at h1'
      obtain ⟨hfr, h1''⟩ := h1'
      rw [Prod.mk.injEq] at h1''
      obtain ⟨hd1, hloc⟩ := h1''
      rw [← hfr, ← hd1, ← hloc] at h2
      unfold insertNodeAt at h2
      dsimp only at h2
      rw [pathSplit_concat] at h2
      dsimp only at h2
      cases hm2 : modifyChildren
          (insertLocalText i s (DomNode.elem "span" "" (some hid) fr))
          d1 q with
      | none => rw [hm2] at h2; exact Option.noConfusion h2
      | some res2 =>
        rw [hm2] at h2
        obtain ⟨u, d2⟩ := res2
        simp only [Option.map_some'] at h2
        have hd2 := Option.some.inj h2
        rw [← hd2]
        exact modifyChildren_pair_tcl (extractSameLocal i s e)
          (fun a => insertLocalText i s (DomNode.elem "span" "" (some hid) a))
          (fun ds a ds1 b ds2 => extract_insert_same_tcl i s e hid ds a ds1
            b ds2)
          q doc fr d1 u d2 hm hm2
  | siblings q i s j e =>
    rw [hcl] at h1
    dsimp only at h1
    cases hm : modifyChildren (extractSiblingsLocal i s j e) doc q with
    | none => rw [hm] at h1; exact Except.noConfusion h1
    | some res =>
      rw [hm] at h1
      obtain ⟨fr, d1⟩ := res
      have h1' := Except.ok.inj h1
      rw [Prod.mk.injEq] at h1'
      obtain ⟨hfr, h1''⟩ := h1'
      rw [Prod.mk.injEq] at h1''
      obtain ⟨hd1, hloc⟩ := h1''
      rw [← hfr, ← hd1, ← hloc] at h2
      unfold insertNodeAt at h2
      dsimp only at h2
      cases hm2 : modifyChildren
          (insertLocalChild (i + 1) (DomNode.elem "span" "" (some hid) fr))
          d1 q with
      | none => rw [hm2] at h2; exact Option.noConfusion h2
      | some res2 =>
        rw [hm2] at h2
        obtain ⟨u, d2⟩ := res2
        simp only [Option.map_some'] at h2
        have hd2 := Option.some.inj h2
        rw [← hd2]
        exact modifyChildren_pair_tcl (extractSiblingsLocal i s j e)
          (fun a => insertLocalChild (i + 1)
            (DomNode.elem "span" "" (some hid) a))
          (fun ds a ds1 b ds2 => extract_insert_siblings_tcl i s j e hid ds a
            ds1 b ds2)
          q doc fr d1 u d2 hm hm2
  | nestedStart q i k s j e =>
    rw [hcl] at h1
    dsimp only at h1
    cases hm : modifyChildren (extractNestedLocal i k s j e) doc q with
    | none => rw [hm] at h1; exact Except.noConfusion h1
    | some res =>
      rw [hm] at h1
      obtain ⟨fr, d1⟩ := res
      have h1' := Except.ok.inj h1
      rw [Prod.mk.injEq] at h1'
      obtain ⟨hfr, h1''⟩ := h1'
      rw [Prod.mk.injEq] at h1''
      obtain ⟨hd1, hloc⟩ := h1''
      rw [← hfr, ← hd1, ← hloc] at h2
      unfold insertNodeAt at h2
      dsimp only at h2
      cases hm2 : modifyChildren
          (insertLocalChild (i + 1) (DomNode.elem "span" "" (some hid) fr))
          d1 q with
      | none => rw [hm2] at h2; exact Option.noConfusion h2
      | some res2 =>
        rw [hm2] at h2
        obtain ⟨u, d2⟩ := res2
        simp only [Option.map_some'] at h2
        have hd2 := Option.some.inj h2
        rw [← hd2]
        exact modifyChildren_pair_tcl (extractNestedLocal i k s j e)
          (fun a => insertLocalChild (i + 1)
            (DomNode.elem "span" "" (some hid) a))
          (fun ds a ds1 b ds2 => extract_insert_nested_tcl i k s j e hid ds a
            ds1 b ds2)
          q doc fr d1 u d2 hm hm2
  | other => rw [hcl] at h1; exact Except.noConfusion h1

theorem apply_success_tcl (doc : Doc) (r : MRange) (hid : String)
    (els : List DomNode) (doc' : Doc)
    (happ : applyHighlightDirect doc r hid = (els, doc'))
    (hne : els ≠ []) :
    textContentList doc' = textContentList doc := by
  unfold applyHighlightDirect at happ
  cases hinfo : rangeInfo doc r with
  | none =>
    rw [hinfo] at happ
    rw [Prod.mk.injEq] at happ
    obtain ⟨he, hd⟩ := happ
    rw [← hd]
  | some info =>
    rw [hinfo] at happ
    obtain ⟨c, txt⟩ := info
    dsimp only at happ
    by_cases hg : (c || (trimChars txt).isEmpty) = true
    · rw [if_pos hg] at happ
      rw [Prod.mk.injEq] at happ
      obtain ⟨he, hd⟩ := happ
      rw [← hd]
    · rw [if_neg hg] at happ
      cases hs : surroundContents doc r hid with
      | ok res =>
        rw [hs] at happ
        obtain ⟨sp, d⟩ := res
        dsimp only at happ
        rw [Prod.mk.injEq] at happ
        obtain ⟨he, hd⟩ := happ
        rw [← hd]
        exact surroundContents_ok_tcl doc r hid sp d hs
      | error u =>
        rw [hs] at happ
        dsimp only at happ
        cases hx : extractContents doc r with
        | error v =>
          rw [hx] at happ
          rw [Prod.mk.injEq] at happ
          obtain ⟨he, hd⟩ := happ
          rw [← hd]
        | ok res =>
          rw [hx] at happ
          obtain ⟨frag, d1, locus⟩ := res
          dsimp only at happ
          by_cases hw : (trimChars (textContentList frag)).isEmpty = true
          · rw [if_pos hw] at happ
            rw [Prod.mk.injEq] at happ
            obtain ⟨he, hd⟩ := happ
            exact absurd he.symm hne
          · rw [if_neg hw] at happ
            cases hins : insertNodeAt d1 locus
                (DomNode.elem "span" "" (some hid) frag) with
            | none =>
              rw [hins] at happ
              rw [Prod.mk.injEq] at happ
              obtain ⟨he, hd⟩ := happ
              exact absurd he.symm hne
            | some d2 =>
              rw [hins] at happ
              dsimp only at happ
              rw [Prod.mk.injEq] at happ
              obtain ⟨he, hd⟩ := happ
              rw [← hd]
              exact extract_insert_tcl doc r hid frag d1 locus d2 hx hins

/-! ## C2: removal inverts rendering on the text level -/

/-- C2: for every highlight whose Render Set entry was produced by a
successful `applyHighlightDirect`, unwrapping its wrappers
(`removeHighlight`'s DOM loop) followed by merging adjacent text nodes
(`normalize`) restores the document's text content byte-for-byte to its
pre-highlight value. -/
theorem remove_inverts_render (doc : Doc) (r : MRange) (hid : String)
    (els : List DomNode) (doc' : Doc)
    (happ : applyHighlightDirect doc r hid = (els, doc'))
    (hne : els ≠ []) :
    textContentList (removeHighlightDom hid doc') = textContentList doc := by
  unfold removeHighlightDom
  rw [textContent_normalizeList, textContent_unwrapList]
  exact apply_success_tcl doc r hid els doc' happ hne

/-- Witness for C2: wrap `"llo w"` inside `"hello world"`, remove it
again, and observe the original text content. -/
theorem remove_inverts_render_witness :
    applyHighlightDirect [DomNode.text (strL "hello world")]
        ⟨[0], 2, [0], 7⟩ "h1" =
      ([DomNode.elem "span" "" (some "h1") [DomNode.text (strL "llo w")]],
        [DomNode.text (strL "he"),
          DomNode.elem "span" "" (some "h1") [DomNode.text (strL "llo w")],
          DomNode.text (strL "orld")]) ∧
    textContentList (removeHighlightDom "h1"
        [DomNode.text (strL "he"),
          DomNode.elem "span" "" (some "h1") [DomNode.text (strL "llo w")],
          DomNode.text (strL "orld")]) =
      textContentList [DomNode.text (strL "hello world")] :=
  ⟨rfl,
    remove_inverts_render [DomNode.text (strL "hello world")]
      ⟨[0], 2, [0], 7⟩ "h1"
      [DomNode.elem "span" "" (some "h1") [DomNode.text (strL "llo w")]]
      [DomNode.text (strL "he"),
        DomNode.elem "span" "" (some "h1") [DomNode.text (strL "llo w")],
        DomNode.text (strL "orld")]
      rfl (by decide)⟩

/-! ## C7: the revalidation pass is idempotent on attached states -/

/-- C7: when every wrapper element of every Render Set entry is attached
to the document, the revalidation pass performs no resolve, render or
unwrap operation (the operation counter stays `0`) and leaves the
document tree and both maps unchanged; consequently running the pass
twice in succession does nothing more than running it once. -/
theorem revalidation_idempotent (st : EngineState)
    (h : ∀ e ∈ st.highlightElements,
      e.2.all (fun el => docContains st.doc el) = true) :
    validateAndRestoreHighlights st = (st, 0) ∧
    validateAndRestoreHighlights (validateAndRestoreHighlights st).1 =
      (st, 0) := by
  have main : ∀ (entries : List (String × List DomNode)) (ops : Nat),
      (∀ e ∈ entries, e.2.all (fun el => docContains st.doc el) = true) →
      entries.foldl validateStep (st, ops) = (st, ops) := by
    intro entries
    induction entries with
    | nil => intro ops _; rfl
    | cons e rest ih =>
      intro ops hall
      simp only [List.foldl_cons]
      have hstep : validateStep (st, ops) e = (st, ops) := by
        obtain ⟨hid, els⟩ := e
        unfold validateStep
        dsimp only
        have hc : (els.all fun el => docContains st.doc el) = true := by
          have := hall (hid, els) (by simp)
          simpa using this
        rw [if_pos hc]
      rw [hstep]
      exact ih ops (fun x hx => hall x (by simp [hx]))
  have h1 : validateAndRestoreHighlights st = (st, 0) :=
    main st.highlightElements 0 h
  refine ⟨h1, ?_⟩
  rw [h1]
  exact h1

/-- Witness for C7: one highlight whose single wrapper is attached. -/
theorem revalidation_idempotent_witness :
    (∀ e ∈ ([("h1",
        [DomNode.elem "span" "" (some "h1") [DomNode.text (strL "b")]])] :
        List (String × List DomNode)),
      e.2.all (fun el => docContains
        [DomNode.text (strL "a"),
          DomNode.elem "span" "" (some "h1") [DomNode.text (strL "b")]] el)
        = true) ∧
    validateAndRestoreHighlights
      ⟨[DomNode.text (strL "a"),
          DomNode.elem "span" "" (some "h1") [DomNode.text (strL "b")]],
        [],
        [("h1",
          [DomNode.elem "span" "" (some "h1") [DomNode.text (strL "b")]])]⟩ =
      (⟨[DomNode.text (strL "a"),
          DomNode.elem "span" "" (some "h1") [DomNode.text (strL "b")]],
        [],
        [("h1",
          [DomNode.elem "span" "" (some "h1") [DomNode.text (strL "b")]])]⟩,
        0) :=
  ⟨by decide,
    (revalidation_idempotent
      ⟨[DomNode.text (strL "a"),
          DomNode.elem "span" "" (some "h1") [DomNode.text (strL "b")]],
        [],
        [("h1",
          [DomNode.elem "span" "" (some "h1") [DomNode.text (strL "b")]])]⟩
      (by decide)).1⟩

/-! ## C3 lemmas: indexOf, trim, text-node positions -/

/-- A successful `headMatches` means the needle is the hay's head slice. -/
theorem headMatches_spec : ∀ (hay needle : List Char),
    headMatches hay needle = true →
    needle.length ≤ hay.length ∧ hay.take needle.length = needle
  | _, [], _ => ⟨Nat.zero_le _, rfl⟩
  | [], _ :: _, h => absurd h (by simp [headMatches])
  | a :: as, b :: bs, h => by
    simp only [headMatches, Bool.and_eq_true, decide_eq_true_eq] at h
    obtain ⟨hab, hrest⟩ := h
    obtain ⟨h1, h2⟩ := headMatches_spec as bs hrest
    exact ⟨Nat.succ_le_succ h1, by simp [List.take_succ_cons, hab, h2]⟩

/-- A successful `indexOf` yields a position where the needle occurs. -/
theorem firstIndexOf_spec : ∀ (hay needle : List Char) (i : Nat),
    firstIndexOf hay needle = some i →
    i + needle.length ≤ hay.length ∧ (hay.drop i).take needle.length = needle
  | hay, needle, i, h => by
    rw [firstIndexOf.eq_def] at h
    dsimp only at h
    by_cases hm : headMatches hay needle = true
    · rw [if_pos hm] at h
      obtain rfl : (0 : Nat) = i := Option.some.inj h
      simpa using headMatches_spec hay needle hm
    · rw [if_neg hm] at h
      match hay, h with
      | [], h => exact absurd h (by simp)
      | a :: rest, h =>
        rw [Option.map_eq_some'] at h
        obtain ⟨j, hj, rfl⟩ := h
        obtain ⟨h1, h2⟩ := firstIndexOf_spec rest needle j hj
        refine ⟨by simp only [List.length_cons]; omega, ?_⟩
        rw [List.drop_succ_cons, h2]

/-- The first element surviving `dropWhile` fails the predicate. -/
theorem head_dropWhile_false (p : Char → Bool) :
    ∀ (s : List Char) (x : Char) (xs : List Char),
      s.dropWhile p = x :: xs → p x = false
  | [], _, _, h => by simp [List.dropWhile] at h
  | a :: as, x, xs, h => by
    rw [List.dropWhile_cons] at h
    by_cases hp : p a = true
    · rw [if_pos hp] at h
      exact head_dropWhile_false p as x xs h
    · rw [if_neg hp] at h
      obtain rfl : a = x := (List.cons.injEq _ _ _ _ ▸ h).1
      exact Bool.not_eq_true _ ▸ hp

/-- A list whose head fails the predicate is fixed by `dropWhile`. -/
theorem dropWhile_eq_self_of_head (p : Char → Bool) :
    ∀ (l : List Char), (∀ x xs, l = x :: xs → p x = false) →
      l.dropWhile p = l
  | [], _ => rfl
  | x :: xs, h => by
    rw [List.dropWhile_cons, h x xs rfl]
    simp

/-- A trimmed string has no leading whitespace. -/
theorem trimChars_dropWhile_self (s : List Char) :
    (trimChars s).dropWhile isJsWhitespace = trimChars s := by
  apply dropWhile_eq_self_of_head
  intro x xs hx
  have hsuff : ((s.dropWhile isJsWhitespace).reverse.dropWhile isJsWhitespace)
      <:+ (s.dropWhile isJsWhitespace).reverse :=
    List.dropWhile_suffix _
  have hpre : trimChars s <+: s.dropWhile isJsWhitespace := by
    have h2 := List.reverse_prefix.mpr hsuff
    simpa [trimChars] using h2
  obtain ⟨w, hw⟩ := hpre
  rw [hx, List.cons_append] at hw
  exact head_dropWhile_false isJsWhitespace s x (xs ++ w) hw.symm

/-- JS `trim` is idempotent. -/
theorem trimChars_idem (s : List Char) :
    trimChars (trimChars s) = trimChars s := by
  have hid : ∀ (l : List Char),
      (l.dropWhile isJsWhitespace).dropWhile isJsWhitespace =
        l.dropWhile isJsWhitespace := fun l =>
    dropWhile_eq_self_of_head _ _ (fun x xs hx => head_dropWhile_false _ l x xs hx)
  conv_lhs => rw [trimChars, trimChars_dropWhile_self s]
  conv_lhs => rw [trimChars]
  rw [List.reverse_reverse, hid, trimChars]


/-- Text-node paths starting at child index `i` are the `i = 0` paths
with the leading index shifted by `i`. -/
theorem textNodesList_shift (ph : Bool) (i : Nat) (ds : List DomNode) :
    textNodesList ph i ds =
      (textNodesList ph 0 ds).map
        (fun x => ((x.1.headD 0 + i) :: x.1.tail, x.2)) := by
  induction ds generalizing i with
  | nil => rfl
  | cons c cs ih =>
    simp only [textNodesList, Nat.zero_add]
    rw [List.map_append]
    congr 1
    · rw [List.map_map]
      apply List.map_congr_left
      intro x hx
      simp [Function.comp]
    · rw [ih (i + 1), ih 1, List.map_map]
      apply List.map_congr_left
      intro x hx
      simp only [Function.comp, List.headD_cons, List.tail_cons]
      have harith : x.1.headD 0 + (i + 1) = x.1.headD 0 + 1 + i := by omega
      rw [harith]

/-- Every recorded text-node path is non-empty. -/
theorem textNodesList_path_ne_nil (ph : Bool) (i : Nat) (ds : List DomNode) :
    ∀ x ∈ textNodesList ph i ds, x.1 ≠ [] := by
  induction ds generalizing i with
  | nil => intro x hx; simp [textNodesList] at hx
  | cons c cs ih =>
    intro x hx
    rw [textNodesList] at hx
    rcases List.mem_append.mp hx with hx | hx
    · obtain ⟨y, hy, rfl⟩ := List.mem_map.mp hx
      simp
    · exact ih (i + 1) x hx

/-- Stepping a boundary path past a leading sibling shifts the flat
position by that sibling's text length. -/
theorem boundaryPosList_cons_succ (c : DomNode) (cs : List DomNode)
    (j : Nat) (p : List Nat) (off : Nat) :
    boundaryPosList (c :: cs) ((j + 1) :: p) off =
      (boundaryPosList cs (j :: p) off).map
        (· + (textContentNode c).length) := by
  rw [boundaryPosList, boundaryPosList, List.getElem?_cons_succ]
  cases hcj : cs[j]? with
  | none => rfl
  | some n =>
    cases n with
    | text s =>
      cases p with
      | nil =>
        dsimp only
        by_cases hoff : off ≤ s.length
        · rw [if_pos hoff, if_pos hoff]
          simp only [List.take_succ_cons, textContentList_cons,
            List.length_append, Option.map_some']
          congr 1
          omega
        · rw [if_neg hoff, if_neg hoff]; rfl
      | cons q qs => rfl
    | elem tg idA hl cs2 =>
      dsimp only
      cases hb : boundaryPosList cs2 p off with
      | none => rfl
      | some v =>
        simp only [List.take_succ_cons, textContentList_cons,
          List.length_append, Option.map_some']
        congr 1
        omega

mutual
/-- Where a walked text node of one node sits: a text node is the whole
content; inside an element, the recorded path addresses the content
slice at the stated flat position. -/
theorem textNodes_pos_node : ∀ (d : DomNode) (ph : Bool) (p : List Nat)
    (txt : List Char) (b : Bool), (p, txt, b) ∈ textNodesNode ph d →
    (d = .text txt ∧ p = []) ∨
    (∃ tg idA hl cs pre post, d = .elem tg idA hl cs ∧
      textContentList cs = pre ++ txt ++ post ∧
      ∀ off : Nat, off ≤ txt.length →
        boundaryPosList cs p off = some (pre.length + off))
  | .text s, ph, p, txt, b, hmem => by
    simp only [textNodesNode, List.mem_singleton, Prod.mk.injEq] at hmem
    exact Or.inl ⟨by rw [hmem.2.1], hmem.1⟩
  | .elem tg idA hl cs, ph, p, txt, b, hmem => by
    rw [textNodesNode] at hmem
    obtain ⟨pre, post, h1, h2⟩ := textNodes_pos_list cs hl.isSome p txt b hmem
    exact Or.inr ⟨tg, idA, hl, cs, pre, post, rfl, h1, h2⟩

/-- Where a walked text node of a child list sits: the flattened list
content splits around it, and `boundaryPosList` maps each in-node offset
to the flat position just after the left part. -/
theorem textNodes_pos_list : ∀ (ds : List DomNode) (ph : Bool) (p : List Nat)
    (txt : List Char) (b : Bool), (p, txt, b) ∈ textNodesList ph 0 ds →
    ∃ pre post, textContentList ds = pre ++ txt ++ post ∧
      ∀ off : Nat, off ≤ txt.length →
        boundaryPosList ds p off = some (pre.length + off)
  | [], ph, p, txt, b, hmem => by simp [textNodesList] at hmem
  | c :: cs, ph, p, txt, b, hmem => by
    rw [textNodesList] at hmem
    rcases List.mem_append.mp hmem with hx | hx
    · obtain ⟨y, hy, heq⟩ := List.mem_map.mp hx
      obtain ⟨p', txt', b'⟩ := y
      simp only [Prod.mk.injEq] at heq
      obtain ⟨hp, ht, hb⟩ := heq
      rcases textNodes_pos_node c ph p' txt' b' hy with
        ⟨hd, hp'⟩ | ⟨tg, idA, hl, cs2, pre2, post2, hd, h1, h2⟩
      · refine ⟨[], textContentList cs, ?_, ?_⟩
        · rw [textContentList_cons, hd]
          simp [textContentNode, ht]
        · intro off hoff
          rw [← hp, hp']
          rw [boundaryPosList]
          simp only [List.getElem?_cons_zero, hd]
          rw [if_pos (by rw [← ht] at hoff; exact hoff)]
          simp
      · refine ⟨pre2, post2 ++ textContentList cs, ?_, ?_⟩
        · rw [textContentList_cons, hd]
          show textContentList cs2 ++ _ = _
          rw [h1, ← ht]
          simp [List.append_assoc]
        · intro off hoff
          rw [← hp]
          rw [boundaryPosList]
          simp only [List.getElem?_cons_zero, hd]
          rw [h2 off (by rw [← ht] at hoff; exact hoff)]
          simp
    · rw [textNodesList_shift ph 1 cs] at hx
      obtain ⟨y, hy, heq⟩ := List.mem_map.mp hx
      have hne := textNodesList_path_ne_nil ph 0 cs y hy
      obtain ⟨p', txt', b'⟩ := y
      cases p' with
      | nil => exact absurd rfl hne
      | cons j ps =>
        simp only [List.headD_cons, List.tail_cons, Prod.mk.injEq] at heq
        obtain ⟨hp, ht, hb⟩ := heq
        obtain ⟨pre3, post3, h1, h2⟩ := textNodes_pos_list cs ph (j :: ps) txt' b' hy
        refine ⟨textContentNode c ++ pre3, post3, ?_, ?_⟩
        · rw [textContentList_cons, h1, ← ht]
          simp [List.append_assoc]
        · intro off hoff
          rw [← hp, boundaryPosList_cons_succ]
          rw [h2 off (by rw [← ht] at hoff; exact hoff)]
          simp only [Option.map_some', List.length_append]
          congr 1
          omega
end

/-- Slicing a flat concatenation inside the middle part. -/
theorem slice_middle (pre mid post : List Char) (a b : Nat)
    (hb : b ≤ mid.length) :
    ((pre ++ mid ++ post).take (pre.length + b)).drop (pre.length + a) =
      (mid.drop a).take (b - a) := by
  rw [List.append_assoc, List.take_append, List.drop_append,
    List.take_append_of_le_length hb, List.drop_take]

/-- The walker loop of `exactTextSearch` succeeds on any list of
eligible document text nodes one of which contains the search text, and
the found range reads back exactly the search text. -/
theorem exactGo_finds (doc : Doc) (needle : List Char)
    (hn : needle ≠ []) (htrim : ¬(trimChars needle).isEmpty = true) :
    ∀ l : List (List Nat × List Char),
      (∀ x ∈ l, x ∈ docEligibleTexts doc) →
      (∃ x ∈ l, containsSub x.2 needle = true) →
      ∃ r, exactTextSearchGo doc needle l = some r ∧
        rangeTextD doc r = needle := by
  intro l
  induction l with
  | nil => intro _ hex; simp at hex
  | cons hd rest ih =>
    intro hsub hex
    obtain ⟨p, nodeText⟩ := hd
    rw [exactTextSearchGo]
    cases hfi : firstIndexOf nodeText needle with
    | none =>
      apply ih (fun x hx => hsub x (List.mem_cons_of_mem _ hx))
      rcases hex with ⟨x, hx, hc⟩
      rcases List.mem_cons.mp hx with rfl | hx'
      · exact absurd hc (by simp [containsSub, hfi])
      · exact ⟨x, hx', hc⟩
    | some idx =>
      have hmem : (p, nodeText) ∈ docEligibleTexts doc :=
        hsub _ (List.mem_cons_self _ _)
      rw [docEligibleTexts] at hmem
      obtain ⟨y, hyf, heq⟩ := List.mem_map.mp hmem
      have hy := (List.mem_filter.mp hyf).1
      obtain ⟨p0, txt0, b0⟩ := y
      simp only [Prod.mk.injEq] at heq
      obtain ⟨rfl, rfl⟩ := heq
      obtain ⟨pre, post, htc, hbd⟩ :=
        textNodes_pos_list doc false p0 txt0 b0 hy
      obtain ⟨hlen, hslice⟩ := firstIndexOf_spec txt0 needle idx hfi
      have hnl : 0 < needle.length := List.length_pos.mpr hn
      have hs := hbd idx (by omega)
      have he := hbd (idx + needle.length) (by omega)
      have hri : rangeInfo doc ⟨p0, idx, p0, idx + needle.length⟩ =
          some (rangeCollapsed ⟨p0, idx, p0, idx + needle.length⟩, needle) := by
        rw [rangeInfo]
        simp only [boundaryPos]
        rw [hs, he]
        dsimp only
        rw [if_pos (by omega)]
        rw [htc, slice_middle pre txt0 post idx (idx + needle.length) hlen,
          Nat.add_sub_cancel_left, hslice]
      have hcol : rangeCollapsed ⟨p0, idx, p0, idx + needle.length⟩ = false := by
        have hne2 : ¬(idx = idx + needle.length) := by omega
        simp [rangeCollapsed, hne2]
      have hrt : rangeTextD doc ⟨p0, idx, p0, idx + needle.length⟩ = needle := by
        rw [rangeTextD, hri]
      refine ⟨⟨p0, idx, p0, idx + needle.length⟩, ?_, hrt⟩
      dsimp only
      rw [hcol]
      simp only [Bool.false_eq_true, if_false]
      rw [hrt]
      rw [if_neg htrim]

/-- C3 (amended): for every stored descriptor at least one of whose
structural XPaths fails to resolve, whose anchor text trims to a
non-empty string, and whose trimmed anchor text occurs verbatim inside
a single text node that is not parented by a highlight wrapper,
`deserializeRange` returns a non-null range whose text equals the
trimmed anchor text; `deserializeRange` is total (resolution failure is
the `none` value, never an exception).  The original claim, requiring
only that the anchor text occur at exactly one position in the
document's flattened text, is refuted by
`resolver_text_fallback_counterexample`: an anchor text spanning two
sibling text nodes occurs exactly once in the flattened text yet every
fallback strategy searches single text nodes, so resolution yields
`none`. -/
theorem resolver_text_fallback (doc : Doc) (sr : SerializedRange)
    (hx : getElementByXPath doc sr.startXPath = none ∨
          getElementByXPath doc sr.endXPath = none)
    (hne : trimChars sr.text ≠ [])
    (hocc : ∃ x ∈ docEligibleTexts doc,
      containsSub x.2 (trimChars sr.text) = true) :
    ∃ r, deserializeRange doc sr = some r ∧
      rangeTextD doc r = trimChars sr.text := by
  have htrimne : ¬(trimChars (trimChars sr.text)).isEmpty = true := by
    rw [trimChars_idem]
    simpa [List.isEmpty_iff] using hne
  obtain ⟨r, hgo, hrt⟩ := exactGo_finds doc (trimChars sr.text)
    hne htrimne (docEligibleTexts doc) (fun x hx => hx) hocc
  have hsts : simpleTextSearch doc sr.text = some r := by
    rw [simpleTextSearch]
    rw [if_neg (by simpa [List.isEmpty_iff] using hne)]
    dsimp only
    rw [exactTextSearch, hgo]
  refine ⟨r, ?_, hrt⟩
  rw [deserializeRange]
  rw [if_neg (by simpa [List.isEmpty_iff] using hne)]
  rcases hx with hx | hx
  · rw [hx]
    cases hend : getElementByXPath doc sr.endXPath with
    | none => exact hsts
    | some pe => exact hsts
  · rw [hx]
    cases hstart : getElementByXPath doc sr.startXPath with
    | none => exact hsts
    | some ps => exact hsts

/-- Witness for `resolver_text_fallback` at a concrete document and
descriptor. -/
theorem resolver_text_fallback_witness :
    ∃ r,
      deserializeRange [.text (strL "hello world")]
        ⟨.byPath [("div", 1)], 0, 0, .byPath [("div", 1)], 2, 0,
          strL "world"⟩ = some r ∧
      rangeTextD [.text (strL "hello world")] r =
        trimChars (strL "world") :=
  resolver_text_fallback _ _ (Or.inl rfl) (by decide)
    ⟨([0], strL "hello world"), by decide, by decide⟩

/-- C3, counterexample to the original claim: in the document
`[text "ab", text "cd"]` the anchor text `"bc"` occurs at exactly one
position of the flattened text `"abcd"`, the stored XPath resolves to
no element, yet `deserializeRange` returns `none`, because every
fallback text-search strategy scans one text node at a time. -/
theorem resolver_text_fallback_counterexample :
    getElementByXPath [.text (strL "ab"), .text (strL "cd")]
        (.byPath [("div", 1)]) = none ∧
    occCount (textContentList [.text (strL "ab"), .text (strL "cd")])
        (strL "bc") = 1 ∧
    deserializeRange [.text (strL "ab"), .text (strL "cd")]
        ⟨.byPath [("div", 1)], 0, 0, .byPath [("div", 1)], 2, 0,
          strL "bc"⟩ = none :=
  ⟨rfl, by decide, rfl⟩

end BrowserReader
